import Mathlib

/-!
# Verification of the AllGather-GEMM kernels (allgather_gemm.py)

Shallow embedding of `python/triton_dist/kernels/nvidia/allgather_gemm.py`:
the non-persistent consumer GEMM kernel (`kernel_consumer_gemm_non_persistent`),
the persistent consumer GEMM kernel (`kernel_consumer_gemm_persistent`), the
workspace `copy_kernel`, the per-context phase counter of
`ag_gemm_intra_node` / `ag_gemm_inter_node`, and the eager shape/dtype checks
of the top-level ops.

Matrix elements are modelled as integers (the kernels' arithmetic is exact on
the values the claims quantify over; the float32 accumulator of the source is
an exact container for the products considered here).  A matrix is a total
function `Nat → Nat → Int`; device stores are masked functional updates folded
over the launch grid.  Flag buffers are total functions `Nat → Int`; an
in-kernel `dl.wait` is modelled as a boolean check that every polled slot
already holds the expected value (if some slot does not, the real kernel spins
forever, which we model by the whole launch returning `none`).
-/

set_option maxHeartbeats 1000000

namespace AllGatherGemm

/-- `triton.cdiv(a, b) = (a + b - 1) // b` (ceiling division). -/
def cdiv (a b : Nat) : Nat := (a + b - 1) / b

/-- The dense reference product of the gathered A with the transposed local
B-shard (B stored as `[N_per_rank, K]`): `C[i][j] = Σ_{k<K} A[i][k]*B[j][k]`. -/
def refC (K : Nat) (A B : Nat → Nat → Int) (i j : Nat) : Int :=
  ∑ k ∈ Finset.range K, A i k * B j k

/-- One masked tile store: where region `R pid` holds, the stored value
`V pid` replaces the memory content. -/
def maskedStore (R : Nat → Nat → Nat → Bool) (V : Nat → Nat → Nat → Int)
    (Cmem : Nat → Nat → Int) (pid : Nat) : Nat → Nat → Int :=
  fun i j => if R pid i j then V pid i j else Cmem i j

/-- Fold a list of program ids, each performing its masked tile store. -/
def runStores (R : Nat → Nat → Nat → Bool) (V : Nat → Nat → Nat → Int)
    (pids : List Nat) (C0 : Nat → Nat → Int) : Nat → Nat → Int :=
  pids.foldl (maskedStore R V) C0

/-! ## Grouped tile mappings

Both kernels map a linear id to an output tile `(pid_m, pid_n)` using the
grouped (`GROUP_SIZE_M`) traversal.  The two kernels write the `pid_m`
remainder slightly differently, so both variants are embedded. -/

/-- Grouped mapping of `kernel_consumer_gemm_non_persistent`, lines 316-324:
`pid_m = first_pid_m + ((pid % num_pid_in_group) % group_size_m)`,
`pid_n = (pid % num_pid_in_group) // group_size_m`. -/
def grouped_map_np (npm npn G pid : Nat) : Nat × Nat :=
  let num_pid_in_group := G * npn
  let group_id := pid / num_pid_in_group
  let first_pid_m := group_id * G
  let group_size_m := min (npm - first_pid_m) G
  (first_pid_m + ((pid % num_pid_in_group) % group_size_m),
   (pid % num_pid_in_group) / group_size_m)

/-- Grouped mapping of `kernel_consumer_gemm_persistent`, lines 197-201:
`pid_m = first_pid_m + (tile_id % group_size_m)`,
`pid_n = (tile_id % num_pid_in_group) // group_size_m`. -/
def grouped_map_p (npm npn G tile_id : Nat) : Nat × Nat :=
  let num_pid_in_group := G * npn
  let group_id := tile_id / num_pid_in_group
  let first_pid_m := group_id * G
  let group_size_m := min (npm - first_pid_m) G
  (first_pid_m + (tile_id % group_size_m),
   (tile_id % num_pid_in_group) / group_size_m)

/-! ## The non-persistent consumer GEMM kernel -/

/-- Scalar arguments of `kernel_consumer_gemm_non_persistent` (lines 288-302).
The strides are fixed to the instantiation used by `ag_gemm_non_persistent_op`
(lines 492-514): A row-major `[M, K]`, B row-major `[N_per_rank, K]` accessed
as its transpose, C row-major `[M, N_per_rank]`. -/
structure NPCfg where
  M : Nat
  N : Nat
  K : Nat
  rank : Nat
  WORLD_SIZE : Nat
  BLOCK_SIZE_M : Nat
  BLOCK_SIZE_N : Nat
  BLOCK_SIZE_K : Nat
  GROUP_SIZE_M : Nat

def np_num_pid_m (c : NPCfg) : Nat := cdiv c.M c.BLOCK_SIZE_M

def np_num_pid_n (c : NPCfg) : Nat := cdiv c.N c.BLOCK_SIZE_N

/-- Lines 316-324. -/
def np_grouped (c : NPCfg) (pid : Nat) : Nat × Nat :=
  grouped_map_np (np_num_pid_m c) (np_num_pid_n c) c.GROUP_SIZE_M pid

/-- Line 328: `m_per_rank = M // WORLD_SIZE`. -/
def np_m_per_rank (c : NPCfg) : Nat := c.M / c.WORLD_SIZE

/-- Lines 329-330: `m_offset = m_per_rank * rank; pid_m_offset = tl.cdiv(m_offset, BLOCK_SIZE_M)`. -/
def np_pid_m_offset (c : NPCfg) : Nat := cdiv (np_m_per_rank c * c.rank) c.BLOCK_SIZE_M

/-- Line 331: `pid_m = (pid_m + pid_m_offset) % num_pid_m` (threadblock swizzle,
applied to the row tile produced by the grouped mapping). -/
def np_pid_m (c : NPCfg) (pid : Nat) : Nat :=
  ((np_grouped c pid).1 + np_pid_m_offset c) % np_num_pid_m c

def np_pid_n (c : NPCfg) (pid : Nat) : Nat := (np_grouped c pid).2

/-- Line 334: `offs_am = pid_m * BLOCK_SIZE_M`. -/
def np_offs_am (c : NPCfg) (pid : Nat) : Nat := np_pid_m c pid * c.BLOCK_SIZE_M

def np_offs_bn (c : NPCfg) (pid : Nat) : Nat := np_pid_n c pid * c.BLOCK_SIZE_N

/-- Line 335: `rank_beg = offs_am // m_per_rank`. -/
def np_rank_beg (c : NPCfg) (pid : Nat) : Nat := np_offs_am c pid / np_m_per_rank c

/-- Line 336: `rank_end = (min(offs_am + BLOCK_SIZE_M, M) - 1) // m_per_rank`. -/
def np_rank_end (c : NPCfg) (pid : Nat) : Nat :=
  (min (np_offs_am c pid + c.BLOCK_SIZE_M) c.M - 1) / np_m_per_rank c

/-- Line 337: `dl.wait(barrier_ptr + rank_beg, rank_end - rank_beg + 1, ...,
waitValue=1)` — true iff every polled slot already holds 1. -/
def np_waitOk (c : NPCfg) (flags : Nat → Int) (pid : Nat) : Bool :=
  (List.range (np_rank_end c pid - np_rank_beg c pid + 1)).all
    (fun t => flags (np_rank_beg c pid + t) == 1)

/-- The set of flag slots polled by the wait of line 337. -/
def np_wait_slots (c : NPCfg) (pid : Nat) : Finset Nat :=
  (Finset.range (np_rank_end c pid - np_rank_beg c pid + 1)).image
    (fun t => np_rank_beg c pid + t)

/-- One element of the A tile loaded in the K-loop (lines 346, 349, 366, 371):
row index `(pid_m*BLOCK_SIZE_M + di) % M`, K-mask `dk < K - kb*BLOCK_SIZE_K`,
out-of-K elements read as 0 (`other=0.0`). -/
def np_a_load (c : NPCfg) (A : Nat → Nat → Int) (pid kb di dk : Nat) : Int :=
  if dk < c.K - kb * c.BLOCK_SIZE_K then
    A ((np_pid_m c pid * c.BLOCK_SIZE_M + di) % c.M) (kb * c.BLOCK_SIZE_K + dk)
  else 0

/-- One element of the B tile loaded in the K-loop (lines 347, 350, 367, 372):
with `stride_bk = b.stride(1) = 1` and `stride_bn = b.stride(0)` this reads
`B[(pid_n*BLOCK_SIZE_N + dj) % N][kb*BLOCK_SIZE_K + dk]` under the same K-mask. -/
def np_b_load (c : NPCfg) (B : Nat → Nat → Int) (pid kb dj dk : Nat) : Int :=
  if dk < c.K - kb * c.BLOCK_SIZE_K then
    B ((np_pid_n c pid * c.BLOCK_SIZE_N + dj) % c.N) (kb * c.BLOCK_SIZE_K + dk)
  else 0

/-- The accumulator after the K-loop (lines 359-372) at local tile coordinates
`(di, dj)`: the sum over all K-blocks of the dot of the masked loads. -/
def np_acc (c : NPCfg) (A B : Nat → Nat → Int) (pid di dj : Nat) : Int :=
  ∑ kb ∈ Finset.range (cdiv c.K c.BLOCK_SIZE_K), ∑ dk ∈ Finset.range c.BLOCK_SIZE_K,
    np_a_load c A pid kb di dk * np_b_load c B pid kb dj dk

/-- The store region of the C tile (lines 376-381): global `(i, j)` is written
iff it lies in the tile and the mask `offs_cm < M ∧ offs_cn < N` holds. -/
def np_region (c : NPCfg) (pid i j : Nat) : Bool :=
  decide (np_offs_am c pid ≤ i ∧ i < np_offs_am c pid + c.BLOCK_SIZE_M ∧ i < c.M ∧
          np_offs_bn c pid ≤ j ∧ j < np_offs_bn c pid + c.BLOCK_SIZE_N ∧ j < c.N)

/-- The value stored at global `(i, j)` by program `pid` (line 381). -/
def np_val (c : NPCfg) (A B : Nat → Nat → Int) (pid i j : Nat) : Int :=
  np_acc c A B pid (i - np_offs_am c pid) (j - np_offs_bn c pid)

/-- Launch grid of `ag_gemm_non_persistent_op` (line 452):
`cdiv(M, BLOCK_SIZE_M) * cdiv(N_per_rank, BLOCK_SIZE_N)` programs. -/
def np_grid (c : NPCfg) : Nat := np_num_pid_m c * np_num_pid_n c

/-- All programs' waits are already satisfied. -/
def np_all_waits (c : NPCfg) (flags : Nat → Int) : Bool :=
  (List.range (np_grid c)).all (np_waitOk c flags)

/-- Memory state of C after all programs of the launch have stored their tile. -/
def np_final (c : NPCfg) (A B C0 : Nat → Nat → Int) : Nat → Nat → Int :=
  runStores (np_region c) (np_val c A B) (List.range (np_grid c)) C0

/-- The whole non-persistent launch: `none` models a hang (some wait can never
resolve because a polled flag does not hold the expected value). -/
def np_run (c : NPCfg) (A B : Nat → Nat → Int) (flags : Nat → Int)
    (C0 : Nat → Nat → Int) : Option (Nat → Nat → Int) :=
  if np_all_waits c flags then some (np_final c A B C0) else none

/-! ## The persistent consumer GEMM kernel -/

/-- Scalar arguments of `kernel_consumer_gemm_persistent` (lines 131-141).
A, B, C are accessed through TMA tensor descriptors with shapes `[M, K]`,
`[N, K]`, `[M, N]` and row-major strides (lines 152-172). -/
structure PCfg where
  M : Nat
  N : Nat
  K : Nat
  rank : Nat
  num_ranks : Nat
  BLOCK_SIZE_M : Nat
  BLOCK_SIZE_N : Nat
  BLOCK_SIZE_K : Nat
  GROUP_SIZE_M : Nat
  EPILOGUE_SUBTILE : Bool
  NUM_SMS : Nat
  ready_value : Int
  LOCAL_WORLD_SIZE : Nat

def p_num_pid_m (c : PCfg) : Nat := cdiv c.M c.BLOCK_SIZE_M

def p_num_pid_n (c : PCfg) : Nat := cdiv c.N c.BLOCK_SIZE_N

/-- Line 147: `k_tiles = tl.cdiv(K, BLOCK_SIZE_K)`. -/
def p_k_tiles (c : PCfg) : Nat := cdiv c.K c.BLOCK_SIZE_K

/-- Line 148: `num_tiles = num_pid_m * num_pid_n`. -/
def p_num_tiles (c : PCfg) : Nat := p_num_pid_m c * p_num_pid_n c

/-- Line 149: `node_id = rank // LOCAL_WORLD_SIZE`. -/
def p_node_id (c : PCfg) : Nat := c.rank / c.LOCAL_WORLD_SIZE

/-- Line 150: `nnodes = num_ranks // LOCAL_WORLD_SIZE`. -/
def p_nnodes (c : PCfg) : Nat := c.num_ranks / c.LOCAL_WORLD_SIZE

/-- Line 186: `M_per_rank = M // num_ranks`. -/
def p_M_per_rank (c : PCfg) : Nat := c.M / c.num_ranks

/-- Line 187: `pid_ms_per_rank = tl.cdiv(M_per_rank, BLOCK_SIZE_M)`. -/
def p_pid_ms_per_rank (c : PCfg) : Nat := cdiv (p_M_per_rank c) c.BLOCK_SIZE_M

/-- Lines 174-176: `tiles_per_SM = num_tiles // NUM_SMS`, plus one when
`start_pid < num_tiles % NUM_SMS`. -/
def p_tiles_per_SM (c : PCfg) (start_pid : Nat) : Nat :=
  p_num_tiles c / c.NUM_SMS + (if start_pid < p_num_tiles c % c.NUM_SMS then 1 else 0)

/-- Line 193: the internal loop runs `k_tiles * tiles_per_SM` iterations. -/
def p_loop_iters (c : PCfg) (start_pid : Nat) : Nat :=
  p_k_tiles c * p_tiles_per_SM c start_pid

/-- Lines 197-201. -/
def p_grouped (c : PCfg) (tile_id : Nat) : Nat × Nat :=
  grouped_map_p (p_num_pid_m c) (p_num_pid_n c) c.GROUP_SIZE_M tile_id

/-- Lines 203-217, the "swizzle m" step applied to the grouped row tile.
Single-node (`nnodes == 1`, lines 204-207, with `alpha = beta = 0`):
rotation by `(((rank ^ 0) + 0) % num_ranks) * pid_ms_per_rank` modulo
`num_pid_m`.  Multi-node (lines 208-217): decompose the owning rank, rotate
its node component by the caller's node id and its local component by the
caller's rank, recombine. -/
def p_swizzle_m (c : PCfg) (pid_m : Nat) : Nat :=
  if p_nnodes c = 1 then
    (pid_m + ((Nat.xor c.rank 0 + 0) % c.num_ranks) * p_pid_ms_per_rank c) % p_num_pid_m c
  else
    let m_rank := pid_m / p_pid_ms_per_rank c
    let pid_m_intra_rank := pid_m - m_rank * p_pid_ms_per_rank c
    let m_node_id := m_rank / c.LOCAL_WORLD_SIZE
    let m_local_rank := m_rank % c.LOCAL_WORLD_SIZE
    let swizzle_m_node_id := (m_node_id + p_node_id c) % p_nnodes c
    let swizzle_m_local_rank := (m_local_rank + c.rank) % c.LOCAL_WORLD_SIZE
    let swizzle_m_rank := swizzle_m_node_id * c.LOCAL_WORLD_SIZE + swizzle_m_local_rank
    swizzle_m_rank * p_pid_ms_per_rank c + pid_m_intra_rank

def p_pid_m (c : PCfg) (tile_id : Nat) : Nat := p_swizzle_m c (p_grouped c tile_id).1

def p_pid_n (c : PCfg) (tile_id : Nat) : Nat := (p_grouped c tile_id).2

/-- Line 219: `offs_am = pid_m * BLOCK_SIZE_M`. -/
def p_offs_am (c : PCfg) (tile_id : Nat) : Nat := p_pid_m c tile_id * c.BLOCK_SIZE_M

/-- Line 220: `offs_bn = pid_n * BLOCK_SIZE_N`. -/
def p_offs_bn (c : PCfg) (tile_id : Nat) : Nat := p_pid_n c tile_id * c.BLOCK_SIZE_N

/-- Line 222: `rank_beg = offs_am // M_per_rank`. -/
def p_rank_beg (c : PCfg) (tile_id : Nat) : Nat := p_offs_am c tile_id / p_M_per_rank c

/-- Line 223: `rank_end = (min(offs_am + BLOCK_SIZE_M, M) - 1) // M_per_rank`. -/
def p_rank_end (c : PCfg) (tile_id : Nat) : Nat :=
  (min (p_offs_am c tile_id + c.BLOCK_SIZE_M) c.M - 1) / p_M_per_rank c

/-- Line 224: `dl.wait(ready_ptr + rank_beg, rank_end - rank_beg + 1, ...,
waitValue=ready_value)`. -/
def p_waitOk (c : PCfg) (flags : Nat → Int) (tile_id : Nat) : Bool :=
  (List.range (p_rank_end c tile_id - p_rank_beg c tile_id + 1)).all
    (fun t => flags (p_rank_beg c tile_id + t) == c.ready_value)

/-- The set of flag slots polled by the wait of line 224. -/
def p_wait_slots (c : PCfg) (tile_id : Nat) : Finset Nat :=
  (Finset.range (p_rank_end c tile_id - p_rank_beg c tile_id + 1)).image
    (fun t => p_rank_beg c tile_id + t)

/-- The accumulator for one output tile (lines 193-237 with the wrap-around
`ki` counter flattened to one K-loop per tile): TMA loads pad out-of-bounds
elements (beyond the descriptor shapes `[M, K]` and `[N, K]`) with zero. -/
def p_acc (c : PCfg) (A B : Nat → Nat → Int) (tile_id di dj : Nat) : Int :=
  ∑ ki ∈ Finset.range (p_k_tiles c), ∑ dk ∈ Finset.range c.BLOCK_SIZE_K,
    (if p_offs_am c tile_id + di < c.M ∧ ki * c.BLOCK_SIZE_K + dk < c.K then
       A (p_offs_am c tile_id + di) (ki * c.BLOCK_SIZE_K + dk) else 0) *
    (if p_offs_bn c tile_id + dj < c.N ∧ ki * c.BLOCK_SIZE_K + dk < c.K then
       B (p_offs_bn c tile_id + dj) (ki * c.BLOCK_SIZE_K + dk) else 0)

/-- A TMA descriptor store of a `BLOCK_SIZE_M × w` tile of values `v` at offsets
`(r0, c0)`: out-of-bounds elements (beyond the `[M, N]` descriptor shape) are
masked off by the hardware. -/
def p_desc_store (c : PCfg) (r0 c0 w : Nat) (v : Nat → Nat → Int)
    (Cmem : Nat → Nat → Int) : Nat → Nat → Int :=
  fun i j =>
    if r0 ≤ i ∧ i < r0 + c.BLOCK_SIZE_M ∧ i < c.M ∧ c0 ≤ j ∧ j < c0 + w ∧ j < c.N
    then v (i - r0) (j - c0) else Cmem i j

/-- The epilogue of one output tile (lines 239-252): either one full store, or
(`EPILOGUE_SUBTILE`) two half-width stores of the split accumulator
(`acc0[di][b] = acc[di][b]`, `acc1[di][b] = acc[di][BLOCK_SIZE_N//2 + b]`). -/
def p_store_tile (c : PCfg) (A B : Nat → Nat → Int) (Cmem : Nat → Nat → Int)
    (tile_id : Nat) : Nat → Nat → Int :=
  if c.EPILOGUE_SUBTILE then
    p_desc_store c (p_offs_am c tile_id) (p_offs_bn c tile_id + c.BLOCK_SIZE_N / 2)
      (c.BLOCK_SIZE_N / 2) (fun di b => p_acc c A B tile_id di (c.BLOCK_SIZE_N / 2 + b))
      (p_desc_store c (p_offs_am c tile_id) (p_offs_bn c tile_id) (c.BLOCK_SIZE_N / 2)
        (fun di b => p_acc c A B tile_id di b) Cmem)
  else
    p_desc_store c (p_offs_am c tile_id) (p_offs_bn c tile_id) c.BLOCK_SIZE_N
      (p_acc c A B tile_id) Cmem

/-- The full-tile store region (both epilogue branches write exactly this
region when `BLOCK_SIZE_N` is even). -/
def p_region (c : PCfg) (tile_id i j : Nat) : Bool :=
  decide (p_offs_am c tile_id ≤ i ∧ i < p_offs_am c tile_id + c.BLOCK_SIZE_M ∧ i < c.M ∧
          p_offs_bn c tile_id ≤ j ∧ j < p_offs_bn c tile_id + c.BLOCK_SIZE_N ∧ j < c.N)

def p_val (c : PCfg) (A B : Nat → Nat → Int) (tile_id i j : Nat) : Int :=
  p_acc c A B tile_id (i - p_offs_am c tile_id) (j - p_offs_bn c tile_id)

/-- Number of launched scheduling units: the ops launch on a grid of
`min(NUM_SMS, cdiv(M, BLOCK_M) * cdiv(N, BLOCK_N))` (lines 584-587, 704-707). -/
def p_num_units (c : PCfg) : Nat := min c.NUM_SMS (p_num_tiles c)

/-- The linear tile ids processed by one scheduling unit `start_pid`
(lines 178, 194-196: `tile_id = start_pid - NUM_SMS`, then `+= NUM_SMS` at
each K-wrap, `tiles_per_SM` times). -/
def p_unit_tiles (c : PCfg) (start_pid : Nat) : List Nat :=
  (List.range (p_tiles_per_SM c start_pid)).map (fun t => start_pid + t * c.NUM_SMS)

/-- All tile ids processed by the launch, unit-major. -/
def p_tile_list (c : PCfg) : List Nat :=
  (List.range (p_num_units c)).flatMap (p_unit_tiles c)

def p_all_waits (c : PCfg) (flags : Nat → Int) : Bool :=
  (p_tile_list c).all (p_waitOk c flags)

/-- Memory state of C after every unit has processed all its tiles. -/
def p_final (c : PCfg) (A B C0 : Nat → Nat → Int) : Nat → Nat → Int :=
  (p_tile_list c).foldl (p_store_tile c A B) C0

/-- The whole persistent launch: `none` models a hang on an unsatisfied wait. -/
def p_run (c : PCfg) (A B : Nat → Nat → Int) (flags : Nat → Int)
    (C0 : Nat → Nat → Int) : Option (Nat → Nat → Int) :=
  if p_all_waits c flags then some (p_final c A B C0) else none

/-! ## The workspace copy kernel -/

/-- Scalar arguments of `copy_kernel` (lines 39-52), with the row-major strides
passed by `local_copy_and_barrier_all` (lines 102-112). -/
structure CopyCfg where
  rank : Nat
  M_per_rank : Nat
  N : Nat
  BLOCK_SIZE_M : Nat
  BLOCK_SIZE_N : Nat

/-- Line 54: `num_pid_n = tl.cdiv(N, BLOCK_SIZE_N)`. -/
def copy_num_pid_n (c : CopyCfg) : Nat := cdiv c.N c.BLOCK_SIZE_N

/-- Launch grid of `copy_kernel` (lines 102, 110):
`cdiv(M_per_rank, BLOCK_SIZE_M) * cdiv(N, BLOCK_SIZE_N)`. -/
def copy_grid (c : CopyCfg) : Nat :=
  cdiv c.M_per_rank c.BLOCK_SIZE_M * copy_num_pid_n c

/-- The region of the global workspace written by program `sm_id`
(lines 56-66, 69): rows `rank*M_per_rank + pid_m*BLOCK_SIZE_M + offs_m` masked
by `pid_m*BLOCK_SIZE_M + offs_m < M_per_rank`, columns masked by `< N`. -/
def copy_region (c : CopyCfg) (sm_id gi gj : Nat) : Bool :=
  decide (c.rank * c.M_per_rank + (sm_id / copy_num_pid_n c) * c.BLOCK_SIZE_M ≤ gi ∧
          gi < c.rank * c.M_per_rank + (sm_id / copy_num_pid_n c) * c.BLOCK_SIZE_M
               + c.BLOCK_SIZE_M ∧
          gi < c.rank * c.M_per_rank + c.M_per_rank ∧
          (sm_id % copy_num_pid_n c) * c.BLOCK_SIZE_N ≤ gj ∧
          gj < (sm_id % copy_num_pid_n c) * c.BLOCK_SIZE_N + c.BLOCK_SIZE_N ∧
          gj < c.N)

/-- The value stored by `copy_kernel` at global `(gi, gj)` (lines 61-69):
the element of the local buffer at `(gi - rank*M_per_rank, gj)`. -/
def copy_val (c : CopyCfg) (localBuf : Nat → Nat → Int) (sm_id gi gj : Nat) : Int :=
  localBuf (gi - c.rank * c.M_per_rank) gj

/-- The global workspace after the whole `copy_kernel` launch. -/
def copy_run (c : CopyCfg) (localBuf g0 : Nat → Nat → Int) : Nat → Nat → Int :=
  runStores (copy_region c) (copy_val c localBuf) (List.range (copy_grid c)) g0

/-! ## The per-context phase counter -/

/-- The phase-relevant state of `AllGatherGEMMTensorParallelContext`
(line 764: `phase: int = 1`). -/
structure AGCtxPhase where
  phase : Nat

/-- A fresh context: the dataclass default `phase: int = 1`. -/
def ctx_init : AGCtxPhase := ⟨1⟩

/-- One call of `ag_gemm_intra_node` (lines 870-872) or `ag_gemm_inter_node`
(lines 957-959): `ctx.phase` is passed to `local_copy_and_barrier_all`, then
`ctx.phase += 2`.  Returns the phase value the call used and the new context. -/
def ag_gemm_call (ctx : AGCtxPhase) : Nat × AGCtxPhase :=
  (ctx.phase, ⟨ctx.phase + 2⟩)

/-- The context after `n` calls reusing it. -/
def ctx_after : Nat → AGCtxPhase
  | 0 => ctx_init
  | n + 1 => (ag_gemm_call (ctx_after n)).2

/-- The phase value used by the `n`-th call (`n` starting at 0). -/
def used_phase (n : Nat) : Nat := (ag_gemm_call (ctx_after n)).1

/-! ## Eager shape/dtype checks of the top-level ops -/

/-- The shape/dtype metadata of a tensor argument; `dtype` is an opaque code. -/
structure TensorMeta where
  rows : Nat
  cols : Nat
  dtype : Nat

/-- The checks run by `ag_gemm_non_persistent_op` (lines 439-440),
`ag_gemm_intra_node_persistent_op` (lines 563-564),
`ag_gemm_inter_node_persistent_op` (lines 675-676) and the context constructors
(lines 811-814, 910-913) before any stream or kernel work is issued:
`assert a.shape[1] == b.shape[1]` and `assert a.dtype == b.dtype`. -/
def ag_op_shape_checks (a b : TensorMeta) : Except String Unit :=
  if a.cols ≠ b.cols then Except.error "Incompatible dimensions"
  else if a.dtype ≠ b.dtype then Except.error "Incompatible dtypes"
  else Except.ok ()

/-! ## Definitions taken from the claims' wording (for refutation) -/

/-- Modelled from the claim C4 wording (not from the source): the row tile
obtained by rotating the grouped row tile by `rank * rowTilesPerRankShard`
(`rowTilesPerRankShard = ceil(M_per_rank / BLOCK_SIZE_M)`) modulo the number
of row tiles. -/
def np_pid_m_spec_rotation (c : NPCfg) (pid : Nat) : Nat :=
  ((np_grouped c pid).1 + c.rank * cdiv (np_m_per_rank c) c.BLOCK_SIZE_M) % np_num_pid_m c

/-- Modelled from the claim C8 wording (not from the source): an A load
"masked at the matrix boundary", i.e. masked on the row index against `M`
(as well as on K). -/
def np_a_load_spec_masked (c : NPCfg) (A : Nat → Nat → Int) (pid kb di dk : Nat) : Int :=
  if np_pid_m c pid * c.BLOCK_SIZE_M + di < c.M ∧ kb * c.BLOCK_SIZE_K + dk < c.K then
    A (np_pid_m c pid * c.BLOCK_SIZE_M + di) (kb * c.BLOCK_SIZE_K + dk)
  else 0

/-- Modelled from the claim C9 wording (not from the source): every unit
executes `ceil(totalTiles * kTilesPerTile / numUnits)` loop iterations. -/
def p_loop_iters_spec (c : PCfg) : Nat :=
  cdiv (p_num_tiles c * p_k_tiles c) c.NUM_SMS

/-! ## Arithmetic toolkit -/

theorem lt_div_mul_add {i b : Nat} (hb : 0 < b) : i < i / b * b + b := by
  have h1 := Nat.div_add_mod i b
  have h2 : i % b < b := Nat.mod_lt i hb
  have h3 : b * (i / b) = i / b * b := Nat.mul_comm _ _
  omega

theorem le_cdiv_mul (a : Nat) {b : Nat} (hb : 0 < b) : a ≤ cdiv a b * b := by
  cases a with
  | zero => simp
  | succ a' =>
    have h : cdiv (a' + 1) b = a' / b + 1 := by
      unfold cdiv
      have h0 : a' + 1 + b - 1 = a' + b := by omega
      rw [h0, Nat.add_div_right a' hb]
    rw [h]
    have h1 := lt_div_mul_add (i := a') hb
    have h2 : (a' / b + 1) * b = a' / b * b + b := by ring
    omega

theorem cdiv_of_dvd {a b : Nat} (hb : 0 < b) (h : b ∣ a) : cdiv a b = a / b := by
  rcases h with ⟨q, rfl⟩
  unfold cdiv
  rw [Nat.mul_div_cancel_left q hb]
  have h1 : b * q + b - 1 = b * q + (b - 1) := by omega
  rw [h1, Nat.mul_add_div hb, Nat.div_eq_of_lt (by omega)]
  omega

theorem mul_lt_of_lt_cdiv {a b pm : Nat} (hb : 0 < b) (h : pm < cdiv a b) : pm * b < a := by
  by_contra hc
  push_neg at hc
  have h1 : cdiv a b ≤ cdiv (pm * b) b := by
    unfold cdiv
    exact Nat.div_le_div_right (by omega)
  have h2 : cdiv (pm * b) b = pm := by
    unfold cdiv
    have h3 : pm * b + b - 1 = b * pm + (b - 1) := by rw [Nat.mul_comm pm b]; omega
    rw [h3, Nat.mul_add_div hb, Nat.div_eq_of_lt (by omega)]
    omega
  omega

theorem div_lt_cdiv {a b i : Nat} (hb : 0 < b) (h : i < a) : i / b < cdiv a b := by
  by_contra hc
  push_neg at hc
  have h1 : cdiv a b * b ≤ i / b * b := Nat.mul_le_mul_right b hc
  have h2 : i / b * b ≤ i := Nat.div_mul_le_self i b
  have h3 : a ≤ cdiv a b * b := le_cdiv_mul a hb
  omega

theorem rot_inj_left {n a x y : Nat} (hx : x < n) (hy : y < n)
    (h : (a + x) % n = (a + y) % n) : x = y := by
  have hm : Nat.ModEq n (a + x) (a + y) := h
  have hxy : Nat.ModEq n x y := Nat.ModEq.add_left_cancel' a hm
  rwa [Nat.ModEq, Nat.mod_eq_of_lt hx, Nat.mod_eq_of_lt hy] at hxy

theorem rot_inj_right {n a x y : Nat} (hx : x < n) (hy : y < n)
    (h : (x + a) % n = (y + a) % n) : x = y := by
  apply rot_inj_left hx hy
  rwa [Nat.add_comm a x, Nat.add_comm a y]

theorem sum_range_mul {M : Type} [AddCommMonoid M] (g : Nat → M) (m n : Nat) :
    ∑ k ∈ Finset.range (m * n), g k
      = ∑ i ∈ Finset.range m, ∑ j ∈ Finset.range n, g (i * n + j) := by
  induction m with
  | zero => simp
  | succ m ih =>
    rw [Finset.sum_range_succ, ← ih, Nat.succ_mul, Finset.sum_range_add]

theorem sum_range_ite_pad (f : Nat → Int) {K T : Nat} (h : K ≤ T) :
    ∑ k ∈ Finset.range T, (if k < K then f k else 0) = ∑ k ∈ Finset.range K, f k := by
  have hsplit : T = K + (T - K) := by omega
  rw [hsplit, Finset.sum_range_add]
  have h1 : ∑ k ∈ Finset.range K, (if k < K then f k else 0) = ∑ k ∈ Finset.range K, f k :=
    Finset.sum_congr rfl (fun k hk => by rw [if_pos (Finset.mem_range.mp hk)])
  have h2 : ∑ j ∈ Finset.range (T - K), (if K + j < K then f (K + j) else 0) = 0 :=
    Finset.sum_eq_zero (fun j _ => by rw [if_neg (by omega)])
  rw [h1, h2, add_zero]

theorem sum_blocks_eq (f : Nat → Int) {K BK : Nat} (hBK : 0 < BK) :
    (∑ kb ∈ Finset.range (cdiv K BK), ∑ dk ∈ Finset.range BK,
      (if kb * BK + dk < K then f (kb * BK + dk) else 0)) = ∑ k ∈ Finset.range K, f k := by
  rw [← sum_range_mul (fun k => if k < K then f k else 0) (cdiv K BK) BK]
  exact sum_range_ite_pad f (le_cdiv_mul K hBK)

/-! ## Masked-store fold lemmas -/

theorem runStores_cons (R : Nat → Nat → Nat → Bool) (V : Nat → Nat → Nat → Int)
    (p : Nat) (rest : List Nat) (C0 : Nat → Nat → Int) :
    runStores R V (p :: rest) C0 = runStores R V rest (maskedStore R V C0 p) := rfl

theorem runStores_frame {R : Nat → Nat → Nat → Bool} {V : Nat → Nat → Nat → Int}
    {pids : List Nat} {C0 : Nat → Nat → Int} {i j : Nat}
    (h : ∀ p ∈ pids, R p i j = false) : runStores R V pids C0 i j = C0 i j := by
  induction pids generalizing C0 with
  | nil => rfl
  | cons p rest ih =>
    rw [runStores_cons, ih (fun q hq => h q (List.mem_cons_of_mem p hq))]
    simp [maskedStore, h p (List.mem_cons_self p rest)]

theorem runStores_value {R : Nat → Nat → Nat → Bool} {V : Nat → Nat → Nat → Int}
    {pids : List Nat} {C0 : Nat → Nat → Int} {i j : Nat} {v : Int}
    (hall : ∀ p ∈ pids, R p i j = true → V p i j = v)
    (hex : ∃ p ∈ pids, R p i j = true) : runStores R V pids C0 i j = v := by
  induction pids generalizing C0 with
  | nil => rcases hex with ⟨p, hp, _⟩; cases hp
  | cons p rest ih =>
    rw [runStores_cons]
    by_cases hrest : ∃ q ∈ rest, R q i j = true
    · exact ih (fun q hq => hall q (List.mem_cons_of_mem p hq)) hrest
    · push_neg at hrest
      have hp : R p i j = true := by
        rcases hex with ⟨q, hq, hRq⟩
        rcases List.mem_cons.mp hq with hq' | hq'
        · rwa [← hq']
        · exact absurd hRq (by simpa using hrest q hq')
      rw [runStores_frame (fun q hq => by simpa using hrest q hq)]
      simp [maskedStore, hp, hall p (List.mem_cons_self p rest) hp]

/-! ## Surjectivity from injectivity on a range -/

theorem surj_of_inj_on_range {β : Type} [DecidableEq β] {T : Nat} (f : Nat → β) (t : Finset β)
    (hmaps : ∀ p < T, f p ∈ t) (hinj : ∀ p < T, ∀ q < T, f p = f q → p = q)
    (hcard : t.card ≤ T) : ∀ b ∈ t, ∃ p, p < T ∧ f p = b := by
  have hsub : (Finset.range T).image f ⊆ t := by
    intro b hb
    rcases Finset.mem_image.mp hb with ⟨p, hp, rfl⟩
    exact hmaps p (Finset.mem_range.mp hp)
  have hinj' : Set.InjOn f ↑(Finset.range T) := by
    intro p hp q hq h
    exact hinj p (by simpa using hp) q (by simpa using hq) h
  have hcard' : t.card ≤ ((Finset.range T).image f).card := by
    rw [Finset.card_image_of_injOn hinj', Finset.card_range]
    exact hcard
  have heq : (Finset.range T).image f = t := Finset.eq_of_subset_of_card_le hsub hcard'
  intro b hb
  rw [← heq] at hb
  rcases Finset.mem_image.mp hb with ⟨p, hp, h⟩
  exact ⟨p, Finset.mem_range.mp hp, h⟩

/-! ## Grouped-mapping lemmas -/

theorem grouped_np_core {npm npn G : Nat} (hG : 0 < G) {pid : Nat} (hpid : pid < npm * npn) :
    ∃ gid r gsz,
      gid = pid / (G * npn) ∧ r = pid % (G * npn) ∧ gsz = min (npm - gid * G) G ∧
      grouped_map_np npm npn G pid = (gid * G + r % gsz, r / gsz) ∧
      pid = gid * (G * npn) + r ∧ gid * G < npm ∧ 0 < gsz ∧ gsz ≤ npm - gid * G ∧
      gsz ≤ G ∧ r < gsz * npn := by
  have hnpn : 0 < npn := by
    rcases Nat.eq_zero_or_pos npn with h | h
    · rw [h, Nat.mul_zero] at hpid; omega
    · exact h
  have hnpg : 0 < G * npn := Nat.mul_pos hG hnpn
  have hdm : pid = pid / (G * npn) * (G * npn) + pid % (G * npn) := by
    have h := Nat.div_add_mod pid (G * npn)
    rw [Nat.mul_comm (G * npn) (pid / (G * npn))] at h
    omega
  have hfirst : pid / (G * npn) * G < npm := by
    by_contra hge
    push_neg at hge
    have h1 : pid / (G * npn) * (G * npn) ≤ pid := Nat.div_mul_le_self _ _
    have h2 : npm * npn ≤ pid / (G * npn) * G * npn := Nat.mul_le_mul_right npn hge
    have h3 : pid / (G * npn) * G * npn = pid / (G * npn) * (G * npn) := by ring
    omega
  have hgsz_pos : 0 < min (npm - pid / (G * npn) * G) G := lt_min (by omega) hG
  have hgsz_le1 : min (npm - pid / (G * npn) * G) G ≤ npm - pid / (G * npn) * G :=
    min_le_left _ _
  have hgsz_le2 : min (npm - pid / (G * npn) * G) G ≤ G := min_le_right _ _
  have hr : pid % (G * npn) < min (npm - pid / (G * npn) * G) G * npn := by
    rcases le_or_lt G (npm - pid / (G * npn) * G) with hcase | hcase
    · rw [min_eq_right hcase]
      exact Nat.mod_lt _ hnpg
    · rw [min_eq_left (Nat.le_of_lt hcase)]
      have h4 : npm * npn
          = pid / (G * npn) * G * npn + (npm - pid / (G * npn) * G) * npn := by
        rw [← Nat.add_mul]
        congr 1
        omega
      have h3 : pid / (G * npn) * G * npn = pid / (G * npn) * (G * npn) := by ring
      omega
  exact ⟨pid / (G * npn), pid % (G * npn), min (npm - pid / (G * npn) * G) G,
    rfl, rfl, rfl, rfl, hdm, hfirst, hgsz_pos, hgsz_le1, hgsz_le2, hr⟩

theorem grouped_p_core {npm npn G : Nat} (hG : 0 < G) {tid : Nat} (htid : tid < npm * npn) :
    ∃ gid r gsz,
      gid = tid / (G * npn) ∧ r = tid % (G * npn) ∧ gsz = min (npm - gid * G) G ∧
      grouped_map_p npm npn G tid = (gid * G + tid % gsz, r / gsz) ∧
      tid = gid * (G * npn) + r ∧ gid * G < npm ∧ 0 < gsz ∧ gsz ≤ npm - gid * G ∧
      gsz ≤ G ∧ r < gsz * npn := by
  obtain ⟨gid, r, gsz, hgid, hr, hgsz, _, hdm, hfirst, hpos, hle1, hle2, hrlt⟩ :=
    grouped_np_core hG htid
  refine ⟨gid, r, gsz, hgid, hr, hgsz, ?_, hdm, hfirst, hpos, hle1, hle2, hrlt⟩
  rw [hgid, hr, hgsz, hgid]
  rfl

theorem grouped_map_np_lt {npm npn G : Nat} (hG : 0 < G) {pid : Nat} (hpid : pid < npm * npn) :
    (grouped_map_np npm npn G pid).1 < npm ∧ (grouped_map_np npm npn G pid).2 < npn := by
  obtain ⟨gid, r, gsz, _, _, _, hmap, _, hfirst, hpos, hle1, _, hrlt⟩ :=
    grouped_np_core hG hpid
  rw [hmap]
  constructor
  · show gid * G + r % gsz < npm
    have hm : r % gsz < gsz := Nat.mod_lt _ hpos
    omega
  · show r / gsz < npn
    exact Nat.div_lt_of_lt_mul hrlt

theorem grouped_map_p_lt {npm npn G : Nat} (hG : 0 < G) {tid : Nat} (htid : tid < npm * npn) :
    (grouped_map_p npm npn G tid).1 < npm ∧ (grouped_map_p npm npn G tid).2 < npn := by
  obtain ⟨gid, r, gsz, _, _, _, hmap, _, hfirst, hpos, hle1, _, hrlt⟩ :=
    grouped_p_core hG htid
  rw [hmap]
  constructor
  · show gid * G + tid % gsz < npm
    have hm : tid % gsz < gsz := Nat.mod_lt _ hpos
    omega
  · show r / gsz < npn
    exact Nat.div_lt_of_lt_mul hrlt

theorem grouped_map_np_inj {npm npn G : Nat} (hG : 0 < G) {p1 p2 : Nat}
    (h1 : p1 < npm * npn) (h2 : p2 < npm * npn)
    (heq : grouped_map_np npm npn G p1 = grouped_map_np npm npn G p2) : p1 = p2 := by
  obtain ⟨g1, r1, s1, hg1, hr1, hs1, hmap1, hdm1, hf1, hp1, hl11, hl12, hrl1⟩ :=
    grouped_np_core hG h1
  obtain ⟨g2, r2, s2, hg2, hr2, hs2, hmap2, hdm2, hf2, hp2, hl21, hl22, hrl2⟩ :=
    grouped_np_core hG h2
  rw [hmap1, hmap2, Prod.mk.injEq] at heq
  obtain ⟨hm, hn⟩ := heq
  have hmod1 : r1 % s1 < s1 := Nat.mod_lt _ hp1
  have hmod2 : r2 % s2 < s2 := Nat.mod_lt _ hp2
  have hgid : g1 = g2 := by
    have e1 : (g1 * G + r1 % s1) / G = g1 := by
      rw [Nat.mul_comm g1 G, Nat.mul_add_div hG, Nat.div_eq_of_lt (by omega)]
      omega
    have e2 : (g2 * G + r2 % s2) / G = g2 := by
      rw [Nat.mul_comm g2 G, Nat.mul_add_div hG, Nat.div_eq_of_lt (by omega)]
      omega
    rw [← e1, ← e2, hm]
  subst hgid
  have hsz : s1 = s2 := by rw [hs1, hs2]
  subst hsz
  have hmods : r1 % s1 = r2 % s1 := by omega
  have d1 := Nat.div_add_mod r1 s1
  have d2 := Nat.div_add_mod r2 s1
  rw [hn] at d1
  have hrr : r1 = r2 := by omega
  omega

theorem grouped_map_p_inj {npm npn G : Nat} (hG : 0 < G) {p1 p2 : Nat}
    (h1 : p1 < npm * npn) (h2 : p2 < npm * npn)
    (heq : grouped_map_p npm npn G p1 = grouped_map_p npm npn G p2) : p1 = p2 := by
  obtain ⟨g1, r1, s1, hg1, hr1, hs1, hmap1, hdm1, hf1, hp1, hl11, hl12, hrl1⟩ :=
    grouped_p_core hG h1
  obtain ⟨g2, r2, s2, hg2, hr2, hs2, hmap2, hdm2, hf2, hp2, hl21, hl22, hrl2⟩ :=
    grouped_p_core hG h2
  rw [hmap1, hmap2, Prod.mk.injEq] at heq
  obtain ⟨hm, hn⟩ := heq
  have hmod1 : p1 % s1 < s1 := Nat.mod_lt _ hp1
  have hmod2 : p2 % s2 < s2 := Nat.mod_lt _ hp2
  have hgid : g1 = g2 := by
    have e1 : (g1 * G + p1 % s1) / G = g1 := by
      rw [Nat.mul_comm g1 G, Nat.mul_add_div hG, Nat.div_eq_of_lt (by omega)]
      omega
    have e2 : (g2 * G + p2 % s2) / G = g2 := by
      rw [Nat.mul_comm g2 G, Nat.mul_add_div hG, Nat.div_eq_of_lt (by omega)]
      omega
    rw [← e1, ← e2, hm]
  subst hgid
  have hsz : s1 = s2 := by rw [hs1, hs2]
  subst hsz
  -- recover r % s1 from p % s1 : p_i % s1 = (g1*(G*npn) + r_i % s1) % s1
  have hrmod1 : r1 % s1 < s1 := Nat.mod_lt _ hp1
  have hrmod2 : r2 % s1 < s1 := Nat.mod_lt _ hp2
  have key : ∀ r : Nat, (g1 * (G * npn) + r) % s1 = (g1 * (G * npn) + r % s1) % s1 := by
    intro r
    conv_lhs => rw [← Nat.div_add_mod r s1]
    rw [← Nat.add_assoc, Nat.add_comm (g1 * (G * npn)) (s1 * (r / s1)), Nat.add_assoc,
        Nat.mul_add_mod]
  have hp1m : p1 % s1 = (g1 * (G * npn) + r1 % s1) % s1 := by
    conv_lhs => rw [hdm1]
    exact key r1
  have hp2m : p2 % s1 = (g1 * (G * npn) + r2 % s1) % s1 := by
    conv_lhs => rw [hdm2]
    exact key r2
  have hmp : p1 % s1 = p2 % s1 := by omega
  have hmods : r1 % s1 = r2 % s1 := by
    apply rot_inj_left hrmod1 hrmod2
    rw [← hp1m, ← hp2m]
    exact hmp

  have d1 := Nat.div_add_mod r1 s1
  have d2 := Nat.div_add_mod r2 s1
  rw [hn] at d1
  have hrr : r1 = r2 := by omega
  omega

/-! ## Swizzle lemmas -/

theorem p_swizzle_m_one {c : PCfg} (h : p_nnodes c = 1) (pm : Nat) :
    p_swizzle_m c pm
      = (pm + (Nat.xor c.rank 0 + 0) % c.num_ranks * p_pid_ms_per_rank c) % p_num_pid_m c := by
  unfold p_swizzle_m
  rw [if_pos h]

theorem p_swizzle_m_else {c : PCfg} (h : ¬ p_nnodes c = 1) (pm : Nat) :
    p_swizzle_m c pm
      = ((pm / p_pid_ms_per_rank c / c.LOCAL_WORLD_SIZE + p_node_id c) % p_nnodes c
            * c.LOCAL_WORLD_SIZE
          + (pm / p_pid_ms_per_rank c % c.LOCAL_WORLD_SIZE + c.rank) % c.LOCAL_WORLD_SIZE)
          * p_pid_ms_per_rank c
        + (pm - pm / p_pid_ms_per_rank c * p_pid_ms_per_rank c) := by
  unfold p_swizzle_m
  rw [if_neg h]

theorem hier_rank_lt {nr LWS nid rank : Nat} (hLWS : 0 < LWS) (hdvd : LWS ∣ nr)
    {m : Nat} (hm : m < nr) :
    (m / LWS + nid) % (nr / LWS) * LWS + (m % LWS + rank) % LWS < nr := by
  obtain ⟨nn, rfl⟩ := hdvd
  have hnn : 0 < nn := by
    rcases Nat.eq_zero_or_pos nn with h | h
    · rw [h, Nat.mul_zero] at hm; omega
    · exact h
  rw [Nat.mul_div_cancel_left nn hLWS]
  have h1 : (m / LWS + nid) % nn < nn := Nat.mod_lt _ hnn
  have h2 : (m % LWS + rank) % LWS < LWS := Nat.mod_lt _ hLWS
  calc (m / LWS + nid) % nn * LWS + (m % LWS + rank) % LWS
      < ((m / LWS + nid) % nn + 1) * LWS := by
        rw [Nat.add_mul, Nat.one_mul]; omega
    _ ≤ nn * LWS := Nat.mul_le_mul_right LWS (by omega)
    _ = LWS * nn := Nat.mul_comm _ _

theorem hier_rank_inj {nr LWS nid rank : Nat} (hLWS : 0 < LWS) (hdvd : LWS ∣ nr)
    {m1 m2 : Nat} (hm1 : m1 < nr) (hm2 : m2 < nr)
    (h : (m1 / LWS + nid) % (nr / LWS) * LWS + (m1 % LWS + rank) % LWS
       = (m2 / LWS + nid) % (nr / LWS) * LWS + (m2 % LWS + rank) % LWS) : m1 = m2 := by
  obtain ⟨nn, rfl⟩ := hdvd
  rw [Nat.mul_div_cancel_left nn hLWS] at h
  have hb1 : (m1 % LWS + rank) % LWS < LWS := Nat.mod_lt _ hLWS
  have hb2 : (m2 % LWS + rank) % LWS < LWS := Nat.mod_lt _ hLWS
  have e1 : ((m1 / LWS + nid) % nn * LWS + (m1 % LWS + rank) % LWS) / LWS
      = (m1 / LWS + nid) % nn := by
    rw [Nat.mul_comm, Nat.mul_add_div hLWS, Nat.div_eq_of_lt hb1]
    omega
  have e2 : ((m2 / LWS + nid) % nn * LWS + (m2 % LWS + rank) % LWS) / LWS
      = (m2 / LWS + nid) % nn := by
    rw [Nat.mul_comm, Nat.mul_add_div hLWS, Nat.div_eq_of_lt hb2]
    omega
  have hnodes : (m1 / LWS + nid) % nn = (m2 / LWS + nid) % nn := by
    rw [← e1, ← e2, h]
  rw [hnodes] at h
  have hlocals : (m1 % LWS + rank) % LWS = (m2 % LWS + rank) % LWS := by omega
  have hd1 : m1 / LWS < nn := Nat.div_lt_of_lt_mul hm1
  have hd2 : m2 / LWS < nn := Nat.div_lt_of_lt_mul hm2
  have hdiv : m1 / LWS = m2 / LWS := rot_inj_right hd1 hd2 hnodes
  have hmod : m1 % LWS = m2 % LWS :=
    rot_inj_right (Nat.mod_lt _ hLWS) (Nat.mod_lt _ hLWS) hlocals
  have k1 := Nat.div_add_mod m1 LWS
  have k2 := Nat.div_add_mod m2 LWS
  rw [hdiv, hmod] at k1
  omega

/-- `pid_m - (pid_m // ppr) * ppr = pid_m % ppr`. -/
theorem intra_eq_mod (pm ppr : Nat) : pm - pm / ppr * ppr = pm % ppr := by
  have h := Nat.div_add_mod pm ppr
  have h2 : ppr * (pm / ppr) = pm / ppr * ppr := Nat.mul_comm _ _
  have h3 : pm % ppr ≤ pm := Nat.mod_le _ _
  omega

theorem p_swizzle_m_lt (c : PCfg) (hLWS : 0 < c.LOCAL_WORLD_SIZE)
    (hLdvd : c.LOCAL_WORLD_SIZE ∣ c.num_ranks)
    (hnpm : p_num_pid_m c = c.num_ranks * p_pid_ms_per_rank c)
    {pm : Nat} (hpm : pm < p_num_pid_m c) : p_swizzle_m c pm < p_num_pid_m c := by
  have hnpm_pos : 0 < p_num_pid_m c := by omega
  by_cases hnn : p_nnodes c = 1
  · rw [p_swizzle_m_one hnn]
    exact Nat.mod_lt _ hnpm_pos
  · rw [p_swizzle_m_else hnn]
    have hppr : 0 < p_pid_ms_per_rank c := by
      rcases Nat.eq_zero_or_pos (p_pid_ms_per_rank c) with h | h
      · rw [h, Nat.mul_zero] at hnpm; omega
      · exact h
    have hmrank : pm / p_pid_ms_per_rank c < c.num_ranks := by
      apply Nat.div_lt_of_lt_mul
      rw [Nat.mul_comm, ← hnpm]
      exact hpm
    have hsig : (pm / p_pid_ms_per_rank c / c.LOCAL_WORLD_SIZE + p_node_id c) % p_nnodes c
          * c.LOCAL_WORLD_SIZE
        + (pm / p_pid_ms_per_rank c % c.LOCAL_WORLD_SIZE + c.rank) % c.LOCAL_WORLD_SIZE
        < c.num_ranks :=
      hier_rank_lt hLWS hLdvd hmrank
    have hintra : pm % p_pid_ms_per_rank c < p_pid_ms_per_rank c := Nat.mod_lt _ hppr
    rw [intra_eq_mod, hnpm]
    generalize hgen : (pm / p_pid_ms_per_rank c / c.LOCAL_WORLD_SIZE + p_node_id c) % p_nnodes c
          * c.LOCAL_WORLD_SIZE
        + (pm / p_pid_ms_per_rank c % c.LOCAL_WORLD_SIZE + c.rank) % c.LOCAL_WORLD_SIZE
        = s at hsig ⊢
    have h6 : (s + 1) * p_pid_ms_per_rank c
        = s * p_pid_ms_per_rank c + p_pid_ms_per_rank c := by ring
    have h7 : (s + 1) * p_pid_ms_per_rank c ≤ c.num_ranks * p_pid_ms_per_rank c :=
      Nat.mul_le_mul_right _ (by omega)
    omega

theorem p_swizzle_m_inj (c : PCfg) (hLWS : 0 < c.LOCAL_WORLD_SIZE)
    (hLdvd : c.LOCAL_WORLD_SIZE ∣ c.num_ranks)
    (hnpm : p_num_pid_m c = c.num_ranks * p_pid_ms_per_rank c)
    {pm1 pm2 : Nat} (h1 : pm1 < p_num_pid_m c) (h2 : pm2 < p_num_pid_m c)
    (heq : p_swizzle_m c pm1 = p_swizzle_m c pm2) : pm1 = pm2 := by
  have hnpm_pos : 0 < p_num_pid_m c := by omega
  have hppr : 0 < p_pid_ms_per_rank c := by
    rcases Nat.eq_zero_or_pos (p_pid_ms_per_rank c) with h | h
    · rw [h, Nat.mul_zero] at hnpm; omega
    · exact h
  by_cases hnn : p_nnodes c = 1
  · rw [p_swizzle_m_one hnn, p_swizzle_m_one hnn] at heq
    exact rot_inj_right h1 h2 heq
  · rw [p_swizzle_m_else hnn, p_swizzle_m_else hnn, intra_eq_mod, intra_eq_mod] at heq
    have hm1 : pm1 / p_pid_ms_per_rank c < c.num_ranks := by
      apply Nat.div_lt_of_lt_mul
      rw [Nat.mul_comm, ← hnpm]
      exact h1
    have hm2 : pm2 / p_pid_ms_per_rank c < c.num_ranks := by
      apply Nat.div_lt_of_lt_mul
      rw [Nat.mul_comm, ← hnpm]
      exact h2
    have hi1 : pm1 % p_pid_ms_per_rank c < p_pid_ms_per_rank c := Nat.mod_lt _ hppr
    have hi2 : pm2 % p_pid_ms_per_rank c < p_pid_ms_per_rank c := Nat.mod_lt _ hppr
    -- unique decomposition base ppr
    have e1 : ∀ s r : Nat, r < p_pid_ms_per_rank c →
        (s * p_pid_ms_per_rank c + r) / p_pid_ms_per_rank c = s := by
      intro s r hr
      rw [Nat.mul_comm s (p_pid_ms_per_rank c), Nat.mul_add_div hppr, Nat.div_eq_of_lt hr]
      omega
    have hsr1 := e1 ((pm1 / p_pid_ms_per_rank c / c.LOCAL_WORLD_SIZE + p_node_id c) % p_nnodes c
          * c.LOCAL_WORLD_SIZE
        + (pm1 / p_pid_ms_per_rank c % c.LOCAL_WORLD_SIZE + c.rank) % c.LOCAL_WORLD_SIZE)
        (pm1 % p_pid_ms_per_rank c) hi1
    have hsr2 := e1 ((pm2 / p_pid_ms_per_rank c / c.LOCAL_WORLD_SIZE + p_node_id c) % p_nnodes c
          * c.LOCAL_WORLD_SIZE
        + (pm2 / p_pid_ms_per_rank c % c.LOCAL_WORLD_SIZE + c.rank) % c.LOCAL_WORLD_SIZE)
        (pm2 % p_pid_ms_per_rank c) hi2
    have hsig : (pm1 / p_pid_ms_per_rank c / c.LOCAL_WORLD_SIZE + p_node_id c) % p_nnodes c
          * c.LOCAL_WORLD_SIZE
        + (pm1 / p_pid_ms_per_rank c % c.LOCAL_WORLD_SIZE + c.rank) % c.LOCAL_WORLD_SIZE
        = (pm2 / p_pid_ms_per_rank c / c.LOCAL_WORLD_SIZE + p_node_id c) % p_nnodes c
          * c.LOCAL_WORLD_SIZE
        + (pm2 / p_pid_ms_per_rank c % c.LOCAL_WORLD_SIZE + c.rank) % c.LOCAL_WORLD_SIZE := by
      rw [← hsr1, ← hsr2, heq]
    rw [hsig] at heq
    have hintra : pm1 % p_pid_ms_per_rank c = pm2 % p_pid_ms_per_rank c := by omega
    have hdiv : pm1 / p_pid_ms_per_rank c = pm2 / p_pid_ms_per_rank c :=
      hier_rank_inj hLWS hLdvd hm1 hm2 hsig
    have k1 := Nat.div_add_mod pm1 (p_pid_ms_per_rank c)
    have k2 := Nat.div_add_mod pm2 (p_pid_ms_per_rank c)
    rw [hdiv, hintra] at k1
    omega

/-- Under the alignment hypothesis `BLOCK_SIZE_M ∣ M_per_rank`, the row tiles
split exactly into `num_ranks` rank shards of `pid_ms_per_rank` tiles each. -/
theorem p_npm_eq (c : PCfg) {Mpr : Nat} (hM : c.M = Mpr * c.num_ranks)
    (hnr : 0 < c.num_ranks) (hBM : 0 < c.BLOCK_SIZE_M)
    (halign : c.BLOCK_SIZE_M ∣ Mpr) :
    p_M_per_rank c = Mpr ∧ p_num_pid_m c = c.num_ranks * p_pid_ms_per_rank c := by
  have hMpr : p_M_per_rank c = Mpr := by
    unfold p_M_per_rank
    rw [hM, Nat.mul_comm Mpr c.num_ranks, Nat.mul_div_cancel_left Mpr hnr]
  refine ⟨hMpr, ?_⟩
  obtain ⟨q, hq⟩ := halign
  have hMq : c.M = c.BLOCK_SIZE_M * (q * c.num_ranks) := by
    rw [hM, hq]; ring
  have hnpm : p_num_pid_m c = q * c.num_ranks := by
    unfold p_num_pid_m
    rw [cdiv_of_dvd hBM ⟨q * c.num_ranks, hMq⟩, hMq, Nat.mul_div_cancel_left _ hBM]
  have hppr : p_pid_ms_per_rank c = q := by
    unfold p_pid_ms_per_rank
    rw [hMpr, hq, cdiv_of_dvd hBM ⟨q, rfl⟩, Nat.mul_div_cancel_left _ hBM]
  rw [hnpm, hppr, Nat.mul_comm]

/-! ## Full tile-map lemmas (grouped mapping plus swizzle) -/

theorem np_map_lt (c : NPCfg) (hG : 0 < c.GROUP_SIZE_M) {pid : Nat} (hpid : pid < np_grid c) :
    np_pid_m c pid < np_num_pid_m c ∧ np_pid_n c pid < np_num_pid_n c := by
  have hpid' : pid < np_num_pid_m c * np_num_pid_n c := hpid
  have hb := grouped_map_np_lt hG hpid'
  have hnpm : 0 < np_num_pid_m c := by
    rcases Nat.eq_zero_or_pos (np_num_pid_m c) with h | h
    · unfold np_grid at hpid; rw [h, Nat.zero_mul] at hpid; omega
    · exact h
  exact ⟨Nat.mod_lt _ hnpm, hb.2⟩

theorem np_map_inj (c : NPCfg) (hG : 0 < c.GROUP_SIZE_M) {p1 p2 : Nat}
    (h1 : p1 < np_grid c) (h2 : p2 < np_grid c)
    (hm : np_pid_m c p1 = np_pid_m c p2) (hn : np_pid_n c p1 = np_pid_n c p2) : p1 = p2 := by
  have h1' : p1 < np_num_pid_m c * np_num_pid_n c := h1
  have h2' : p2 < np_num_pid_m c * np_num_pid_n c := h2
  have hb1 := grouped_map_np_lt hG h1'
  have hb2 := grouped_map_np_lt hG h2'
  have hg : (np_grouped c p1).1 = (np_grouped c p2).1 := rot_inj_right hb1.1 hb2.1 hm
  exact grouped_map_np_inj hG h1' h2' (Prod.ext hg hn)

theorem np_map_surj (c : NPCfg) (hG : 0 < c.GROUP_SIZE_M) {tm tn : Nat}
    (htm : tm < np_num_pid_m c) (htn : tn < np_num_pid_n c) :
    ∃ pid, pid < np_grid c ∧ np_pid_m c pid = tm ∧ np_pid_n c pid = tn := by
  have h := surj_of_inj_on_range (T := np_grid c)
      (fun pid => (np_pid_m c pid, np_pid_n c pid))
      ((Finset.range (np_num_pid_m c)) ×ˢ (Finset.range (np_num_pid_n c)))
      (fun p hp => by
        have hb := np_map_lt c hG hp
        simp [Finset.mem_product, hb.1, hb.2])
      (fun p hp q hq hpq => by
        have hpq' : (np_pid_m c p, np_pid_n c p) = (np_pid_m c q, np_pid_n c q) := hpq
        rw [Prod.mk.injEq] at hpq'
        exact np_map_inj c hG hp hq hpq'.1 hpq'.2)
      (by
        rw [Finset.card_product, Finset.card_range, Finset.card_range]
        exact le_of_eq rfl)
      (tm, tn) (by simp [Finset.mem_product, htm, htn])
  rcases h with ⟨pid, hlt, hpq⟩
  have hpq' : (np_pid_m c pid, np_pid_n c pid) = (tm, tn) := hpq
  rw [Prod.mk.injEq] at hpq'
  exact ⟨pid, hlt, hpq'.1, hpq'.2⟩

theorem p_map_lt (c : PCfg) (hG : 0 < c.GROUP_SIZE_M) (hLWS : 0 < c.LOCAL_WORLD_SIZE)
    (hLdvd : c.LOCAL_WORLD_SIZE ∣ c.num_ranks)
    (hnpm : p_num_pid_m c = c.num_ranks * p_pid_ms_per_rank c)
    {tid : Nat} (htid : tid < p_num_tiles c) :
    p_pid_m c tid < p_num_pid_m c ∧ p_pid_n c tid < p_num_pid_n c := by
  have htid' : tid < p_num_pid_m c * p_num_pid_n c := htid
  have hb := grouped_map_p_lt hG htid'
  exact ⟨p_swizzle_m_lt c hLWS hLdvd hnpm hb.1, hb.2⟩

theorem p_map_inj (c : PCfg) (hG : 0 < c.GROUP_SIZE_M) (hLWS : 0 < c.LOCAL_WORLD_SIZE)
    (hLdvd : c.LOCAL_WORLD_SIZE ∣ c.num_ranks)
    (hnpm : p_num_pid_m c = c.num_ranks * p_pid_ms_per_rank c)
    {t1 t2 : Nat} (h1 : t1 < p_num_tiles c) (h2 : t2 < p_num_tiles c)
    (hm : p_pid_m c t1 = p_pid_m c t2) (hn : p_pid_n c t1 = p_pid_n c t2) : t1 = t2 := by
  have h1' : t1 < p_num_pid_m c * p_num_pid_n c := h1
  have h2' : t2 < p_num_pid_m c * p_num_pid_n c := h2
  have hb1 := grouped_map_p_lt hG h1'
  have hb2 := grouped_map_p_lt hG h2'
  have hg : (p_grouped c t1).1 = (p_grouped c t2).1 :=
    p_swizzle_m_inj c hLWS hLdvd hnpm hb1.1 hb2.1 hm
  exact grouped_map_p_inj hG h1' h2' (Prod.ext hg hn)

theorem p_map_surj (c : PCfg) (hG : 0 < c.GROUP_SIZE_M) (hLWS : 0 < c.LOCAL_WORLD_SIZE)
    (hLdvd : c.LOCAL_WORLD_SIZE ∣ c.num_ranks)
    (hnpm : p_num_pid_m c = c.num_ranks * p_pid_ms_per_rank c)
    {tm tn : Nat} (htm : tm < p_num_pid_m c) (htn : tn < p_num_pid_n c) :
    ∃ tid, tid < p_num_tiles c ∧ p_pid_m c tid = tm ∧ p_pid_n c tid = tn := by
  have h := surj_of_inj_on_range (T := p_num_tiles c)
      (fun tid => (p_pid_m c tid, p_pid_n c tid))
      ((Finset.range (p_num_pid_m c)) ×ˢ (Finset.range (p_num_pid_n c)))
      (fun p hp => by
        have hb := p_map_lt c hG hLWS hLdvd hnpm hp
        simp [Finset.mem_product, hb.1, hb.2])
      (fun p hp q hq hpq => by
        have hpq' : (p_pid_m c p, p_pid_n c p) = (p_pid_m c q, p_pid_n c q) := hpq
        rw [Prod.mk.injEq] at hpq'
        exact p_map_inj c hG hLWS hLdvd hnpm hp hq hpq'.1 hpq'.2)
      (by
        rw [Finset.card_product, Finset.card_range, Finset.card_range]
        exact le_of_eq rfl)
      (tm, tn) (by simp [Finset.mem_product, htm, htn])
  rcases h with ⟨tid, hlt, hpq⟩
  have hpq' : (p_pid_m c tid, p_pid_n c tid) = (tm, tn) := hpq
  rw [Prod.mk.injEq] at hpq'
  exact ⟨tid, hlt, hpq'.1, hpq'.2⟩

/-! ## Tile-list and schedule-partition lemmas -/

theorem mem_p_tile_list (c : PCfg) (hNS : 0 < c.NUM_SMS) {n : Nat} :
    n ∈ p_tile_list c ↔ n < p_num_tiles c := by
  unfold p_tile_list p_unit_tiles p_num_units
  simp only [List.mem_flatMap, List.mem_map, List.mem_range]
  constructor
  · rintro ⟨p, hp, t, ht, rfl⟩
    have hd := Nat.div_add_mod (p_num_tiles c) c.NUM_SMS
    have hmod : p_num_tiles c % c.NUM_SMS < c.NUM_SMS := Nat.mod_lt _ hNS
    unfold p_tiles_per_SM at ht
    by_cases hcase : p < p_num_tiles c % c.NUM_SMS
    · rw [if_pos hcase] at ht
      have ht' : t ≤ p_num_tiles c / c.NUM_SMS := by omega
      have h1 : t * c.NUM_SMS ≤ p_num_tiles c / c.NUM_SMS * c.NUM_SMS :=
        Nat.mul_le_mul_right _ ht'
      have h2 : c.NUM_SMS * (p_num_tiles c / c.NUM_SMS)
          = p_num_tiles c / c.NUM_SMS * c.NUM_SMS := Nat.mul_comm _ _
      omega
    · rw [if_neg hcase] at ht
      have ht' : t + 1 ≤ p_num_tiles c / c.NUM_SMS := by omega
      have h1 : (t + 1) * c.NUM_SMS ≤ p_num_tiles c / c.NUM_SMS * c.NUM_SMS :=
        Nat.mul_le_mul_right _ ht'
      have h2 : c.NUM_SMS * (p_num_tiles c / c.NUM_SMS)
          = p_num_tiles c / c.NUM_SMS * c.NUM_SMS := Nat.mul_comm _ _
      have h3 : (t + 1) * c.NUM_SMS = t * c.NUM_SMS + c.NUM_SMS := by ring
      have h4 : p_num_tiles c / c.NUM_SMS * c.NUM_SMS ≤ p_num_tiles c := by omega
      have hpNS : p < min c.NUM_SMS (p_num_tiles c) := hp
      omega
  · intro hn
    refine ⟨n % c.NUM_SMS, ?_, n / c.NUM_SMS, ?_, ?_⟩
    · rcases le_or_lt c.NUM_SMS (p_num_tiles c) with hc | hc
      · rw [min_eq_left hc]
        exact Nat.mod_lt _ hNS
      · rw [min_eq_right (Nat.le_of_lt hc)]
        have : n % c.NUM_SMS ≤ n := Nat.mod_le _ _
        omega
    · unfold p_tiles_per_SM
      have hle : n / c.NUM_SMS ≤ p_num_tiles c / c.NUM_SMS :=
        Nat.div_le_div_right (Nat.le_of_lt hn)
      rcases Nat.lt_or_ge (n / c.NUM_SMS) (p_num_tiles c / c.NUM_SMS) with hlt | hge
      · have : p_num_tiles c / c.NUM_SMS ≤ p_tiles_per_SM c (n % c.NUM_SMS) := by
          unfold p_tiles_per_SM
          exact Nat.le_add_right _ _
        unfold p_tiles_per_SM at this
        omega
      · have heq : n / c.NUM_SMS = p_num_tiles c / c.NUM_SMS := by omega
        have hd1 := Nat.div_add_mod n c.NUM_SMS
        have hd2 := Nat.div_add_mod (p_num_tiles c) c.NUM_SMS
        rw [heq] at hd1
        have hmods : n % c.NUM_SMS < p_num_tiles c % c.NUM_SMS := by omega
        rw [if_pos hmods, heq]
        omega
    · have hd := Nat.div_add_mod n c.NUM_SMS
      have h2 : c.NUM_SMS * (n / c.NUM_SMS) = n / c.NUM_SMS * c.NUM_SMS := Nat.mul_comm _ _
      omega

theorem p_tiles_partition (c : PCfg) (hNS : 0 < c.NUM_SMS) {n : Nat}
    (hn : n < p_num_tiles c) :
    ∃! pt : Nat × Nat, pt.1 < c.NUM_SMS ∧ pt.2 < p_tiles_per_SM c pt.1 ∧
      n = pt.1 + pt.2 * c.NUM_SMS := by
  refine ⟨(n % c.NUM_SMS, n / c.NUM_SMS), ⟨Nat.mod_lt _ hNS, ?_, ?_⟩, ?_⟩
  · -- t < tiles_per_SM p
    unfold p_tiles_per_SM
    have hle : n / c.NUM_SMS ≤ p_num_tiles c / c.NUM_SMS :=
      Nat.div_le_div_right (Nat.le_of_lt hn)
    rcases Nat.lt_or_ge (n / c.NUM_SMS) (p_num_tiles c / c.NUM_SMS) with hlt | hge
    · omega
    · have heq : n / c.NUM_SMS = p_num_tiles c / c.NUM_SMS := by omega
      have hd1 := Nat.div_add_mod n c.NUM_SMS
      have hd2 := Nat.div_add_mod (p_num_tiles c) c.NUM_SMS
      rw [heq] at hd1
      have hmods : n % c.NUM_SMS < p_num_tiles c % c.NUM_SMS := by omega
      rw [if_pos hmods, heq]
      omega
  · show n = n % c.NUM_SMS + n / c.NUM_SMS * c.NUM_SMS
    have hd := Nat.div_add_mod n c.NUM_SMS
    have h2 : c.NUM_SMS * (n / c.NUM_SMS) = n / c.NUM_SMS * c.NUM_SMS := Nat.mul_comm _ _
    omega
  · rintro ⟨p, t⟩ ⟨hp, ht, hn'⟩
    have hmod : n % c.NUM_SMS = p := by
      rw [hn', Nat.add_mul_mod_self_right, Nat.mod_eq_of_lt hp]
    have hdiv : n / c.NUM_SMS = t := by
      rw [hn', Nat.add_mul_div_right _ _ hNS, Nat.div_eq_of_lt hp]
      omega
    rw [Prod.mk.injEq]
    exact ⟨hmod.symm, hdiv.symm⟩

/-! ## Wait-range lemmas -/

theorem wait_range_facts {M Mpr WS BM offs : Nat} (hBM : 0 < BM) (hMpr : 0 < Mpr)
    (hM : M = Mpr * WS) (hoffs : offs < M) :
    offs / Mpr ≤ (min (offs + BM) M - 1) / Mpr ∧ (min (offs + BM) M - 1) / Mpr < WS := by
  have he : offs ≤ min (offs + BM) M - 1 := by
    have h1 : offs < min (offs + BM) M := lt_min (by omega) hoffs
    omega
  refine ⟨Nat.div_le_div_right he, ?_⟩
  have h2 : min (offs + BM) M - 1 ≤ M - 1 := by
    have := min_le_right (offs + BM) M
    omega
  have h3 : (M - 1) / Mpr < WS := by
    apply Nat.div_lt_of_lt_mul
    omega
  exact lt_of_le_of_lt (Nat.div_le_div_right h2) h3

theorem np_wait_bounds (c : NPCfg) (hBM : 0 < c.BLOCK_SIZE_M) (hWS : 0 < c.WORLD_SIZE)
    (hdvd : c.WORLD_SIZE ∣ c.M) {pid : Nat} (hpid : pid < np_grid c) :
    np_rank_beg c pid ≤ np_rank_end c pid ∧ np_rank_end c pid < c.WORLD_SIZE := by
  have hnpm : 0 < np_num_pid_m c := by
    rcases Nat.eq_zero_or_pos (np_num_pid_m c) with h | h
    · unfold np_grid at hpid; rw [h, Nat.zero_mul] at hpid; omega
    · exact h
  have hpm : np_pid_m c pid < np_num_pid_m c := Nat.mod_lt _ hnpm
  have hoffs : np_offs_am c pid < c.M := by
    unfold np_offs_am
    exact mul_lt_of_lt_cdiv hBM hpm
  have hM : c.M = np_m_per_rank c * c.WORLD_SIZE := by
    unfold np_m_per_rank
    rcases hdvd with ⟨q, hq⟩
    rw [hq, Nat.mul_div_cancel_left _ hWS, Nat.mul_comm]
  have hMpr : 0 < np_m_per_rank c := by
    rcases Nat.eq_zero_or_pos (np_m_per_rank c) with h | h
    · rw [h, Nat.zero_mul] at hM; omega
    · exact h
  have hw := wait_range_facts hBM hMpr hM hoffs
  exact hw

theorem np_waitOk_all (c : NPCfg) (flags : Nat → Int) (hBM : 0 < c.BLOCK_SIZE_M)
    (hWS : 0 < c.WORLD_SIZE) (hdvd : c.WORLD_SIZE ∣ c.M)
    (hflags : ∀ s : Nat, s < c.WORLD_SIZE → flags s = 1) :
    np_all_waits c flags = true := by
  unfold np_all_waits
  rw [List.all_eq_true]
  intro pid hpid
  rw [List.mem_range] at hpid
  obtain ⟨hbe, hlt⟩ := np_wait_bounds c hBM hWS hdvd hpid
  unfold np_waitOk
  rw [List.all_eq_true]
  intro t ht
  rw [List.mem_range] at ht
  have hslot : np_rank_beg c pid + t < c.WORLD_SIZE := by omega
  simp [hflags _ hslot]

theorem p_wait_bounds (c : PCfg) (hBM : 0 < c.BLOCK_SIZE_M) (hnr : 0 < c.num_ranks)
    (hdvd : c.num_ranks ∣ c.M) (hG : 0 < c.GROUP_SIZE_M)
    (hLWS : 0 < c.LOCAL_WORLD_SIZE) (hLdvd : c.LOCAL_WORLD_SIZE ∣ c.num_ranks)
    (hnpm : p_num_pid_m c = c.num_ranks * p_pid_ms_per_rank c)
    {tid : Nat} (htid : tid < p_num_tiles c) :
    p_rank_beg c tid ≤ p_rank_end c tid ∧ p_rank_end c tid < c.num_ranks := by
  have hpm : p_pid_m c tid < p_num_pid_m c := (p_map_lt c hG hLWS hLdvd hnpm htid).1
  have hoffs : p_offs_am c tid < c.M := by
    unfold p_offs_am
    exact mul_lt_of_lt_cdiv hBM hpm
  have hM : c.M = p_M_per_rank c * c.num_ranks := by
    unfold p_M_per_rank
    rcases hdvd with ⟨q, hq⟩
    rw [hq, Nat.mul_div_cancel_left _ hnr, Nat.mul_comm]
  have hMpr : 0 < p_M_per_rank c := by
    rcases Nat.eq_zero_or_pos (p_M_per_rank c) with h | h
    · rw [h, Nat.zero_mul] at hM; omega
    · exact h
  exact wait_range_facts hBM hMpr hM hoffs

theorem p_waitOk_all (c : PCfg) (flags : Nat → Int) (hBM : 0 < c.BLOCK_SIZE_M)
    (hnr : 0 < c.num_ranks) (hdvd : c.num_ranks ∣ c.M) (hG : 0 < c.GROUP_SIZE_M)
    (hNS : 0 < c.NUM_SMS) (hLWS : 0 < c.LOCAL_WORLD_SIZE)
    (hLdvd : c.LOCAL_WORLD_SIZE ∣ c.num_ranks)
    (hnpm : p_num_pid_m c = c.num_ranks * p_pid_ms_per_rank c)
    (hflags : ∀ s : Nat, s < c.num_ranks → flags s = c.ready_value) :
    p_all_waits c flags = true := by
  unfold p_all_waits
  rw [List.all_eq_true]
  intro tid htid
  rw [mem_p_tile_list c hNS] at htid
  obtain ⟨hbe, hlt⟩ := p_wait_bounds c hBM hnr hdvd hG hLWS hLdvd hnpm htid
  unfold p_waitOk
  rw [List.all_eq_true]
  intro t ht
  rw [List.mem_range] at ht
  have hslot : p_rank_beg c tid + t < c.num_ranks := by omega
  simp [hflags _ hslot]

/-! ## Stored-value lemmas -/

theorem np_val_eq (c : NPCfg) (A B : Nat → Nat → Int) (hBK : 0 < c.BLOCK_SIZE_K)
    {pid i j : Nat} (hreg : np_region c pid i j = true) :
    np_val c A B pid i j = refC c.K A B i j := by
  rw [np_region, decide_eq_true_eq] at hreg
  obtain ⟨h1, h2, h3, h4, h5, h6⟩ := hreg
  unfold np_offs_am at h1 h2
  unfold np_offs_bn at h4 h5
  unfold np_val np_acc
  have hgi : ∀ kb dk : Nat,
      np_a_load c A pid kb (i - np_offs_am c pid) dk
        = (if kb * c.BLOCK_SIZE_K + dk < c.K then A i (kb * c.BLOCK_SIZE_K + dk) else 0) := by
    intro kb dk
    unfold np_a_load np_offs_am
    have hrow : np_pid_m c pid * c.BLOCK_SIZE_M + (i - np_pid_m c pid * c.BLOCK_SIZE_M) = i := by
      omega
    rw [hrow, Nat.mod_eq_of_lt h3]
    by_cases hk : dk < c.K - kb * c.BLOCK_SIZE_K
    · rw [if_pos hk, if_pos (by omega)]
    · rw [if_neg hk, if_neg (by omega)]
  have hgj : ∀ kb dk : Nat,
      np_b_load c B pid kb (j - np_offs_bn c pid) dk
        = (if kb * c.BLOCK_SIZE_K + dk < c.K then B j (kb * c.BLOCK_SIZE_K + dk) else 0) := by
    intro kb dk
    unfold np_b_load np_offs_bn
    have hcol : np_pid_n c pid * c.BLOCK_SIZE_N + (j - np_pid_n c pid * c.BLOCK_SIZE_N) = j := by
      omega
    rw [hcol, Nat.mod_eq_of_lt h6]
    by_cases hk : dk < c.K - kb * c.BLOCK_SIZE_K
    · rw [if_pos hk, if_pos (by omega)]
    · rw [if_neg hk, if_neg (by omega)]
  have hterm : ∀ kb ∈ Finset.range (cdiv c.K c.BLOCK_SIZE_K),
      ∀ dk ∈ Finset.range c.BLOCK_SIZE_K,
      np_a_load c A pid kb (i - np_offs_am c pid) dk
        * np_b_load c B pid kb (j - np_offs_bn c pid) dk
      = (if kb * c.BLOCK_SIZE_K + dk < c.K
          then A i (kb * c.BLOCK_SIZE_K + dk) * B j (kb * c.BLOCK_SIZE_K + dk) else 0) := by
    intro kb _ dk _
    rw [hgi kb dk, hgj kb dk]
    by_cases hk : kb * c.BLOCK_SIZE_K + dk < c.K
    · rw [if_pos hk, if_pos hk, if_pos hk]
    · rw [if_neg hk, if_neg hk, if_neg hk]
      simp
  rw [Finset.sum_congr rfl (fun kb hkb => Finset.sum_congr rfl (fun dk hdk => hterm kb hkb dk hdk))]
  exact sum_blocks_eq (fun k => A i k * B j k) hBK

theorem p_val_eq (c : PCfg) (A B : Nat → Nat → Int) (hBK : 0 < c.BLOCK_SIZE_K)
    {tid i j : Nat} (hreg : p_region c tid i j = true) :
    p_val c A B tid i j = refC c.K A B i j := by
  rw [p_region, decide_eq_true_eq] at hreg
  obtain ⟨h1, h2, h3, h4, h5, h6⟩ := hreg
  unfold p_val p_acc
  have hrow : p_offs_am c tid + (i - p_offs_am c tid) = i := by omega
  have hcol : p_offs_bn c tid + (j - p_offs_bn c tid) = j := by omega
  have hterm : ∀ ki ∈ Finset.range (p_k_tiles c), ∀ dk ∈ Finset.range c.BLOCK_SIZE_K,
      (if p_offs_am c tid + (i - p_offs_am c tid) < c.M ∧
            ki * c.BLOCK_SIZE_K + dk < c.K then
         A (p_offs_am c tid + (i - p_offs_am c tid)) (ki * c.BLOCK_SIZE_K + dk) else 0) *
      (if p_offs_bn c tid + (j - p_offs_bn c tid) < c.N ∧
            ki * c.BLOCK_SIZE_K + dk < c.K then
         B (p_offs_bn c tid + (j - p_offs_bn c tid)) (ki * c.BLOCK_SIZE_K + dk) else 0)
      = (if ki * c.BLOCK_SIZE_K + dk < c.K
          then A i (ki * c.BLOCK_SIZE_K + dk) * B j (ki * c.BLOCK_SIZE_K + dk) else 0) := by
    intro ki _ dk _
    rw [hrow, hcol]
    by_cases hk : ki * c.BLOCK_SIZE_K + dk < c.K
    · rw [if_pos ⟨h3, hk⟩, if_pos ⟨h6, hk⟩, if_pos hk]
    · rw [if_neg (by tauto), if_neg (by tauto), if_neg hk]
      simp
  rw [Finset.sum_congr rfl (fun ki hki => Finset.sum_congr rfl (fun dk hdk => hterm ki hki dk hdk))]
  exact sum_blocks_eq (fun k => A i k * B j k) hBK

/-! ## Coverage lemmas -/

theorem np_cover (c : NPCfg) (hG : 0 < c.GROUP_SIZE_M) (hBM : 0 < c.BLOCK_SIZE_M)
    (hBN : 0 < c.BLOCK_SIZE_N) {i j : Nat} (hi : i < c.M) (hj : j < c.N) :
    ∃ pid, pid < np_grid c ∧ np_region c pid i j = true := by
  have htm : i / c.BLOCK_SIZE_M < np_num_pid_m c := div_lt_cdiv hBM hi
  have htn : j / c.BLOCK_SIZE_N < np_num_pid_n c := div_lt_cdiv hBN hj
  obtain ⟨pid, hpid, hpm, hpn⟩ := np_map_surj c hG htm htn
  refine ⟨pid, hpid, ?_⟩
  rw [np_region, decide_eq_true_eq]
  unfold np_offs_am np_offs_bn
  rw [hpm, hpn]
  have h1 : i / c.BLOCK_SIZE_M * c.BLOCK_SIZE_M ≤ i := Nat.div_mul_le_self _ _
  have h2 : i < i / c.BLOCK_SIZE_M * c.BLOCK_SIZE_M + c.BLOCK_SIZE_M := lt_div_mul_add hBM
  have h3 : j / c.BLOCK_SIZE_N * c.BLOCK_SIZE_N ≤ j := Nat.div_mul_le_self _ _
  have h4 : j < j / c.BLOCK_SIZE_N * c.BLOCK_SIZE_N + c.BLOCK_SIZE_N := lt_div_mul_add hBN
  exact ⟨h1, h2, hi, h3, h4, hj⟩

theorem p_cover (c : PCfg) (hG : 0 < c.GROUP_SIZE_M) (hBM : 0 < c.BLOCK_SIZE_M)
    (hBN : 0 < c.BLOCK_SIZE_N) (hLWS : 0 < c.LOCAL_WORLD_SIZE)
    (hLdvd : c.LOCAL_WORLD_SIZE ∣ c.num_ranks)
    (hnpm : p_num_pid_m c = c.num_ranks * p_pid_ms_per_rank c)
    {i j : Nat} (hi : i < c.M) (hj : j < c.N) :
    ∃ tid, tid < p_num_tiles c ∧ p_region c tid i j = true := by
  have htm : i / c.BLOCK_SIZE_M < p_num_pid_m c := div_lt_cdiv hBM hi
  have htn : j / c.BLOCK_SIZE_N < p_num_pid_n c := div_lt_cdiv hBN hj
  obtain ⟨tid, htid, hpm, hpn⟩ := p_map_surj c hG hLWS hLdvd hnpm htm htn
  refine ⟨tid, htid, ?_⟩
  rw [p_region, decide_eq_true_eq]
  unfold p_offs_am p_offs_bn
  rw [hpm, hpn]
  have h1 : i / c.BLOCK_SIZE_M * c.BLOCK_SIZE_M ≤ i := Nat.div_mul_le_self _ _
  have h2 : i < i / c.BLOCK_SIZE_M * c.BLOCK_SIZE_M + c.BLOCK_SIZE_M := lt_div_mul_add hBM
  have h3 : j / c.BLOCK_SIZE_N * c.BLOCK_SIZE_N ≤ j := Nat.div_mul_le_self _ _
  have h4 : j < j / c.BLOCK_SIZE_N * c.BLOCK_SIZE_N + c.BLOCK_SIZE_N := lt_div_mul_add hBN
  exact ⟨h1, h2, hi, h3, h4, hj⟩

/-! ## Epilogue equivalence and kernel-correctness lemmas -/

theorem p_store_tile_eq (c : PCfg) (A B : Nat → Nat → Int)
    (hE : c.EPILOGUE_SUBTILE = true → 2 ∣ c.BLOCK_SIZE_N)
    (Cmem : Nat → Nat → Int) (t : Nat) :
    p_store_tile c A B Cmem t = maskedStore (p_region c) (p_val c A B) Cmem t := by
  unfold p_store_tile
  by_cases hES : c.EPILOGUE_SUBTILE
  · rw [if_pos hES]
    obtain ⟨h2, hh⟩ := hE hES
    have hhalf : c.BLOCK_SIZE_N / 2 + c.BLOCK_SIZE_N / 2 = c.BLOCK_SIZE_N := by omega
    funext i j
    unfold p_desc_store maskedStore p_region p_val
    by_cases hc2 : p_offs_am c t ≤ i ∧ i < p_offs_am c t + c.BLOCK_SIZE_M ∧ i < c.M ∧
        p_offs_bn c t + c.BLOCK_SIZE_N / 2 ≤ j ∧
        j < p_offs_bn c t + c.BLOCK_SIZE_N / 2 + c.BLOCK_SIZE_N / 2 ∧ j < c.N
    · rw [if_pos hc2]
      have hreg : p_offs_am c t ≤ i ∧ i < p_offs_am c t + c.BLOCK_SIZE_M ∧ i < c.M ∧
          p_offs_bn c t ≤ j ∧ j < p_offs_bn c t + c.BLOCK_SIZE_N ∧ j < c.N := by omega
      rw [if_pos (by simpa using hreg)]
      have harg : c.BLOCK_SIZE_N / 2 + (j - (p_offs_bn c t + c.BLOCK_SIZE_N / 2))
          = j - p_offs_bn c t := by omega
      show p_acc c A B t (i - p_offs_am c t)
          (c.BLOCK_SIZE_N / 2 + (j - (p_offs_bn c t + c.BLOCK_SIZE_N / 2)))
        = p_acc c A B t (i - p_offs_am c t) (j - p_offs_bn c t)
      rw [harg]
    · rw [if_neg hc2]
      by_cases hc1 : p_offs_am c t ≤ i ∧ i < p_offs_am c t + c.BLOCK_SIZE_M ∧ i < c.M ∧
          p_offs_bn c t ≤ j ∧ j < p_offs_bn c t + c.BLOCK_SIZE_N / 2 ∧ j < c.N
      · rw [if_pos hc1]
        have hreg : p_offs_am c t ≤ i ∧ i < p_offs_am c t + c.BLOCK_SIZE_M ∧ i < c.M ∧
            p_offs_bn c t ≤ j ∧ j < p_offs_bn c t + c.BLOCK_SIZE_N ∧ j < c.N := by omega
        rw [if_pos (by simpa using hreg)]
      · rw [if_neg hc1]
        have hnreg : ¬ (p_offs_am c t ≤ i ∧ i < p_offs_am c t + c.BLOCK_SIZE_M ∧ i < c.M ∧
            p_offs_bn c t ≤ j ∧ j < p_offs_bn c t + c.BLOCK_SIZE_N ∧ j < c.N) := by omega
        rw [if_neg (by simpa using hnreg)]
  · rw [if_neg hES]
    funext i j
    unfold p_desc_store maskedStore p_region p_val
    by_cases hc : p_offs_am c t ≤ i ∧ i < p_offs_am c t + c.BLOCK_SIZE_M ∧ i < c.M ∧
        p_offs_bn c t ≤ j ∧ j < p_offs_bn c t + c.BLOCK_SIZE_N ∧ j < c.N
    · rw [if_pos hc, if_pos (by simpa using hc)]
    · rw [if_neg hc, if_neg (by simpa using hc)]

theorem foldl_congr_step {α : Type} (f g : (Nat → Nat → Int) → α → (Nat → Nat → Int))
    (h : ∀ acc x, f acc x = g acc x) (l : List α) (init : Nat → Nat → Int) :
    l.foldl f init = l.foldl g init := by
  induction l generalizing init with
  | nil => rfl
  | cons x xs ih => rw [List.foldl_cons, List.foldl_cons, h, ih]

theorem p_final_eq_runStores (c : PCfg) (A B C0 : Nat → Nat → Int)
    (hE : c.EPILOGUE_SUBTILE = true → 2 ∣ c.BLOCK_SIZE_N) :
    p_final c A B C0 = runStores (p_region c) (p_val c A B) (p_tile_list c) C0 := by
  unfold p_final runStores
  exact foldl_congr_step _ _ (fun acc x => p_store_tile_eq c A B hE acc x) _ C0

/-- Full correctness of the non-persistent consumer GEMM launch, ragged edges
included: all waits resolve, every in-range element of C is the dense
reference product, and C is untouched outside `[M, N)`. -/
theorem np_correct (c : NPCfg) (A B C0 : Nat → Nat → Int) (flags : Nat → Int)
    (hBM : 0 < c.BLOCK_SIZE_M) (hBN : 0 < c.BLOCK_SIZE_N) (hBK : 0 < c.BLOCK_SIZE_K)
    (hG : 0 < c.GROUP_SIZE_M) (hWS : 0 < c.WORLD_SIZE) (hdvd : c.WORLD_SIZE ∣ c.M)
    (hflags : ∀ s : Nat, s < c.WORLD_SIZE → flags s = 1) :
    np_all_waits c flags = true ∧
    (∀ i j : Nat, np_final c A B C0 i j
      = if i < c.M ∧ j < c.N then refC c.K A B i j else C0 i j) := by
  refine ⟨np_waitOk_all c flags hBM hWS hdvd hflags, ?_⟩
  intro i j
  by_cases hin : i < c.M ∧ j < c.N
  · rw [if_pos hin]
    obtain ⟨pid, hpid, hreg⟩ := np_cover c hG hBM hBN hin.1 hin.2
    exact runStores_value
      (fun p _ hRp => np_val_eq c A B hBK hRp)
      ⟨pid, List.mem_range.mpr hpid, hreg⟩
  · rw [if_neg hin]
    apply runStores_frame
    intro p _
    rw [np_region]
    simp only [decide_eq_false_iff_not]
    intro hconj
    exact hin ⟨hconj.2.2.1, hconj.2.2.2.2.2⟩

/-- Full correctness of the persistent consumer GEMM launch under the
row-shard tile alignment `BLOCK_SIZE_M ∣ M_per_rank` and
`LOCAL_WORLD_SIZE ∣ num_ranks`. -/
theorem p_correct (c : PCfg) (A B C0 : Nat → Nat → Int) (flags : Nat → Int) (Mpr : Nat)
    (hM : c.M = Mpr * c.num_ranks) (hnr : 0 < c.num_ranks)
    (hBM : 0 < c.BLOCK_SIZE_M) (hBN : 0 < c.BLOCK_SIZE_N) (hBK : 0 < c.BLOCK_SIZE_K)
    (hG : 0 < c.GROUP_SIZE_M) (hNS : 0 < c.NUM_SMS)
    (hLWS : 0 < c.LOCAL_WORLD_SIZE) (hLdvd : c.LOCAL_WORLD_SIZE ∣ c.num_ranks)
    (halign : c.BLOCK_SIZE_M ∣ Mpr)
    (hE : c.EPILOGUE_SUBTILE = true → 2 ∣ c.BLOCK_SIZE_N)
    (hflags : ∀ s : Nat, s < c.num_ranks → flags s = c.ready_value) :
    p_all_waits c flags = true ∧
    (∀ i j : Nat, p_final c A B C0 i j
      = if i < c.M ∧ j < c.N then refC c.K A B i j else C0 i j) := by
  obtain ⟨hMpr, hnpm⟩ := p_npm_eq c hM hnr hBM halign
  have hdvd : c.num_ranks ∣ c.M := ⟨Mpr, by rw [hM, Nat.mul_comm]⟩
  refine ⟨p_waitOk_all c flags hBM hnr hdvd hG hNS hLWS hLdvd hnpm hflags, ?_⟩
  intro i j
  rw [p_final_eq_runStores c A B C0 hE]
  by_cases hin : i < c.M ∧ j < c.N
  · rw [if_pos hin]
    obtain ⟨tid, htid, hreg⟩ := p_cover c hG hBM hBN hLWS hLdvd hnpm hin.1 hin.2
    exact runStores_value
      (fun p _ hRp => p_val_eq c A B hBK hRp)
      ⟨tid, (mem_p_tile_list c hNS).mpr htid, hreg⟩
  · rw [if_neg hin]
    apply runStores_frame
    intro p _
    rw [p_region]
    simp only [decide_eq_false_iff_not]
    intro hconj
    exact hin ⟨hconj.2.2.1, hconj.2.2.2.2.2⟩

/-! ## Phase-counter lemma -/

theorem ctx_after_phase (n : Nat) : (ctx_after n).phase = 2 * n + 1 := by
  induction n with
  | zero => rfl
  | succ n ih =>
    have h : (ctx_after (n + 1)).phase = (ctx_after n).phase + 2 := rfl
    omega

/-! ## Division decomposition helpers -/

theorem decomp_div {s r b : Nat} (hb : 0 < b) (hr : r < b) :
    (s * b + r) / b = s ∧ (s * b + r) % b = r := by
  constructor
  · rw [Nat.mul_comm s b, Nat.mul_add_div hb, Nat.div_eq_of_lt hr]
    omega
  · rw [Nat.mul_comm s b, Nat.mul_add_mod, Nat.mod_eq_of_lt hr]

theorem cdiv_eq (a b : Nat) (hb : 0 < b) :
    cdiv a b = a / b + (if a % b = 0 then 0 else 1) := by
  have hd := Nat.div_add_mod a b
  by_cases h : a % b = 0
  · rw [if_pos h, cdiv_of_dvd hb (Nat.dvd_of_mod_eq_zero h)]
    omega
  · rw [if_neg h]
    unfold cdiv
    have hmod : a % b < b := Nat.mod_lt _ hb
    have h1 : a + b - 1 = b * (a / b) + (a % b + b - 1) := by omega
    rw [h1, Nat.mul_add_div hb]
    have h2 : a % b + b - 1 = (a % b - 1) + b := by omega
    rw [h2, Nat.add_div_right _ hb,
        Nat.div_eq_of_lt (show a % b - 1 < b by omega)]

theorem sum_indicator_lt {r NS : Nat} (h : r ≤ NS) :
    ∑ p ∈ Finset.range NS, (if p < r then 1 else 0) = r := by
  induction NS with
  | zero =>
    simp only [Finset.range_zero, Finset.sum_empty]
    omega
  | succ n ih =>
    rw [Finset.sum_range_succ]
    rcases Nat.lt_or_ge n r with hlt | hge
    · have hr : r = n + 1 := by omega
      subst hr
      rw [if_pos hlt]
      have hone : ∑ p ∈ Finset.range n, (if p < n + 1 then 1 else 0)
          = ∑ p ∈ Finset.range n, 1 :=
        Finset.sum_congr rfl (fun p hp => if_pos (by
          rw [Finset.mem_range] at hp
          omega))
      rw [hone, Finset.sum_const, Finset.card_range, smul_eq_mul, Nat.mul_one]
    · rw [if_neg (by omega), ih hge, Nat.add_zero]

theorem tiles_per_SM_sum (c : PCfg) (hNS : 0 < c.NUM_SMS) :
    ∑ p ∈ Finset.range c.NUM_SMS, p_tiles_per_SM c p = p_num_tiles c := by
  unfold p_tiles_per_SM
  rw [Finset.sum_add_distrib, Finset.sum_const, Finset.card_range, smul_eq_mul,
      sum_indicator_lt (le_of_lt (Nat.mod_lt _ hNS))]
  have hd := Nat.div_add_mod (p_num_tiles c) c.NUM_SMS
  omega

/-! ## Wait-slot characterization -/

theorem slots_image_eq_Icc {b e : Nat} (h : b ≤ e) :
    (Finset.range (e - b + 1)).image (fun t => b + t) = Finset.Icc b e := by
  ext r
  simp only [Finset.mem_image, Finset.mem_range, Finset.mem_Icc]
  constructor
  · rintro ⟨t, ht, rfl⟩
    omega
  · intro hr
    exact ⟨r - b, by omega, by omega⟩

theorem wait_slots_char {Mpr M BM offs : Nat} (hBM : 0 < BM) (hMpr : 0 < Mpr)
    (hoffs : offs < M) (r : Nat) :
    (offs / Mpr ≤ r ∧ r ≤ (min (offs + BM) M - 1) / Mpr) ↔
    ∃ x : Nat, r * Mpr ≤ x ∧ x < (r + 1) * Mpr ∧ offs ≤ x ∧
      x < min (offs + BM) M := by
  have hepos : offs < min (offs + BM) M := lt_min (by omega) hoffs
  constructor
  · rintro ⟨hbeg, hend⟩
    have h1 : offs < (r + 1) * Mpr := by
      by_contra hcon
      push_neg at hcon
      have h1' : r + 1 ≤ offs / Mpr := (Nat.le_div_iff_mul_le hMpr).mpr hcon
      omega
    have h3 : r * Mpr ≤ min (offs + BM) M - 1 := (Nat.le_div_iff_mul_le hMpr).mp hend
    have h2 : r * Mpr < min (offs + BM) M := by omega
    have h4 : r * Mpr < (r + 1) * Mpr := by
      have he : (r + 1) * Mpr = r * Mpr + Mpr := by ring
      omega
    exact ⟨max offs (r * Mpr), le_max_right _ _, max_lt h1 h4, le_max_left _ _,
      max_lt hepos h2⟩
  · rintro ⟨x, hx1, hx2, hx3, hx4⟩
    constructor
    · by_contra hcon
      push_neg at hcon
      have h5 : (r + 1) * Mpr ≤ offs := (Nat.le_div_iff_mul_le hMpr).mp (by omega)
      omega
    · exact (Nat.le_div_iff_mul_le hMpr).mpr (by omega)

theorem np_env (c : NPCfg) (hBM : 0 < c.BLOCK_SIZE_M) (hWS : 0 < c.WORLD_SIZE)
    (hdvd : c.WORLD_SIZE ∣ c.M) {pid : Nat} (hpid : pid < np_grid c) :
    0 < np_m_per_rank c ∧ np_offs_am c pid < c.M := by
  have hnpm : 0 < np_num_pid_m c := by
    rcases Nat.eq_zero_or_pos (np_num_pid_m c) with h | h
    · unfold np_grid at hpid; rw [h, Nat.zero_mul] at hpid; omega
    · exact h
  have hpm : np_pid_m c pid < np_num_pid_m c := Nat.mod_lt _ hnpm
  have hoffs : np_offs_am c pid < c.M := by
    unfold np_offs_am
    exact mul_lt_of_lt_cdiv hBM hpm
  have hM : c.M = np_m_per_rank c * c.WORLD_SIZE := by
    unfold np_m_per_rank
    rcases hdvd with ⟨q, hq⟩
    rw [hq, Nat.mul_div_cancel_left _ hWS, Nat.mul_comm]
  have hMpr : 0 < np_m_per_rank c := by
    rcases Nat.eq_zero_or_pos (np_m_per_rank c) with h | h
    · rw [h, Nat.zero_mul] at hM; omega
    · exact h
  exact ⟨hMpr, hoffs⟩

theorem p_env (c : PCfg) (hBM : 0 < c.BLOCK_SIZE_M) (hnr : 0 < c.num_ranks)
    (hdvd : c.num_ranks ∣ c.M) (hG : 0 < c.GROUP_SIZE_M)
    (hLWS : 0 < c.LOCAL_WORLD_SIZE) (hLdvd : c.LOCAL_WORLD_SIZE ∣ c.num_ranks)
    (hnpm : p_num_pid_m c = c.num_ranks * p_pid_ms_per_rank c)
    {tid : Nat} (htid : tid < p_num_tiles c) :
    0 < p_M_per_rank c ∧ p_offs_am c tid < c.M := by
  have hpm : p_pid_m c tid < p_num_pid_m c := (p_map_lt c hG hLWS hLdvd hnpm htid).1
  have hoffs : p_offs_am c tid < c.M := by
    unfold p_offs_am
    exact mul_lt_of_lt_cdiv hBM hpm
  have hM : c.M = p_M_per_rank c * c.num_ranks := by
    unfold p_M_per_rank
    rcases hdvd with ⟨q, hq⟩
    rw [hq, Nat.mul_div_cancel_left _ hnr, Nat.mul_comm]
  have hMpr : 0 < p_M_per_rank c := by
    rcases Nat.eq_zero_or_pos (p_M_per_rank c) with h | h
    · rw [h, Nat.zero_mul] at hM; omega
    · exact h
  exact ⟨hMpr, hoffs⟩

/-! ## Copy-kernel correctness -/

theorem copy_cover (c : CopyCfg) (hBM : 0 < c.BLOCK_SIZE_M) (hBN : 0 < c.BLOCK_SIZE_N)
    {i j : Nat} (hi : i < c.M_per_rank) (hj : j < c.N) :
    ∃ sm_id, sm_id < copy_grid c ∧
      copy_region c sm_id (c.rank * c.M_per_rank + i) j = true := by
  have htn : j / c.BLOCK_SIZE_N < copy_num_pid_n c := div_lt_cdiv hBN hj
  have hnpn : 0 < copy_num_pid_n c := lt_of_le_of_lt (Nat.zero_le _) htn
  have htm : i / c.BLOCK_SIZE_M < cdiv c.M_per_rank c.BLOCK_SIZE_M := div_lt_cdiv hBM hi
  refine ⟨i / c.BLOCK_SIZE_M * copy_num_pid_n c + j / c.BLOCK_SIZE_N, ?_, ?_⟩
  · have hmul : (i / c.BLOCK_SIZE_M + 1) * copy_num_pid_n c
        ≤ cdiv c.M_per_rank c.BLOCK_SIZE_M * copy_num_pid_n c :=
      Nat.mul_le_mul_right _ (by omega)
    have hexp : (i / c.BLOCK_SIZE_M + 1) * copy_num_pid_n c
        = i / c.BLOCK_SIZE_M * copy_num_pid_n c + copy_num_pid_n c := by ring
    unfold copy_grid
    omega
  · obtain ⟨hdiv, hmod⟩ := decomp_div (s := i / c.BLOCK_SIZE_M)
      (r := j / c.BLOCK_SIZE_N) hnpn htn
    rw [copy_region, decide_eq_true_eq, hdiv, hmod]
    have h1 : i / c.BLOCK_SIZE_M * c.BLOCK_SIZE_M ≤ i := Nat.div_mul_le_self _ _
    have h2 : i < i / c.BLOCK_SIZE_M * c.BLOCK_SIZE_M + c.BLOCK_SIZE_M := lt_div_mul_add hBM
    have h3 : j / c.BLOCK_SIZE_N * c.BLOCK_SIZE_N ≤ j := Nat.div_mul_le_self _ _
    have h4 : j < j / c.BLOCK_SIZE_N * c.BLOCK_SIZE_N + c.BLOCK_SIZE_N := lt_div_mul_add hBN
    refine ⟨by omega, by omega, by omega, h3, h4, hj⟩

theorem copy_correct (c : CopyCfg) (localBuf g0 : Nat → Nat → Int)
    (hBM : 0 < c.BLOCK_SIZE_M) (hBN : 0 < c.BLOCK_SIZE_N) :
    (∀ i j : Nat, i < c.M_per_rank → j < c.N →
      copy_run c localBuf g0 (c.rank * c.M_per_rank + i) j = localBuf i j) ∧
    (∀ gi gj : Nat,
      gi < c.rank * c.M_per_rank ∨ c.rank * c.M_per_rank + c.M_per_rank ≤ gi →
      copy_run c localBuf g0 gi gj = g0 gi gj) := by
  constructor
  · intro i j hi hj
    obtain ⟨sm_id, hsm, hreg⟩ := copy_cover c hBM hBN hi hj
    apply runStores_value
    · intro p _ _
      unfold copy_val
      have harg : c.rank * c.M_per_rank + i - c.rank * c.M_per_rank = i := by omega
      rw [harg]
    · exact ⟨sm_id, List.mem_range.mpr hsm, hreg⟩
  · intro gi gj hout
    apply runStores_frame
    intro p _
    rw [copy_region]
    simp only [decide_eq_false_iff_not]
    intro hconj
    obtain ⟨c1, c2, c3, c4, c5, c6⟩ := hconj
    rcases hout with h | h
    · omega
    · omega

/-! ## Claim theorems -/

/-- Claim C6: across calls of `ag_gemm_intra_node` / `ag_gemm_inter_node`
reusing one context, the phase counter starts at 1 and is incremented by
exactly 2 after being passed to the local-copy-and-barrier step, so the n-th
call (n from 0) uses phase 2n+1 and the counter strictly increases
call-over-call. -/
theorem claim_C6 :
    ctx_init.phase = 1 ∧
    (∀ n : Nat, (ctx_after (n + 1)).phase = (ctx_after n).phase + 2) ∧
    (∀ n : Nat, used_phase n = 2 * n + 1) ∧
    (∀ n : Nat, (ctx_after n).phase < (ctx_after (n + 1)).phase) := by
  refine ⟨rfl, fun n => rfl, ?_, ?_⟩
  · intro n
    show (ctx_after n).phase = 2 * n + 1
    exact ctx_after_phase n
  · intro n
    have h1 := ctx_after_phase n
    have h2 := ctx_after_phase (n + 1)
    omega

/-- Claim C7, counterexample: the eager checks accept tensors whose B row
count (3) is not divisible by the rank count (2) — no divisibility check
exists in the ops, contrary to the claim. -/
theorem claim_C7_counterexample :
    ag_op_shape_checks ⟨2, 4, 0⟩ ⟨3, 4, 0⟩ = Except.ok () ∧ ¬ ((2:Nat) ∣ 3) := by
  constructor
  · rfl
  · decide

/-- Claim C7 (amended): each top-level op and context constructor eagerly
asserts `a.shape[1] == b.shape[1]` and `a.dtype == b.dtype` before issuing any
device work, and those are the only shape/dtype checks: the checks succeed iff
the inner dimensions and dtypes agree (no divisibility of B's row count by the
rank count is checked). -/
theorem claim_C7 (a b : TensorMeta) :
    ag_op_shape_checks a b = Except.ok () ↔ (a.cols = b.cols ∧ a.dtype = b.dtype) := by
  unfold ag_op_shape_checks
  by_cases h1 : a.cols = b.cols
  · by_cases h2 : a.dtype = b.dtype
    · simp [h1, h2]
    · simp [h1, h2]
  · simp [h1]

/-- Claim C9, counterexample: with totalTiles = 3, kTiles = 2, NUM_SMS = 2,
unit 0 executes 2 * 2 = 4 loop iterations, not
ceil(totalTiles * kTiles / NUM_SMS) = 3. -/
theorem claim_C9_counterexample :
    p_loop_iters ⟨3, 1, 2, 0, 1, 1, 1, 1, 8, false, 2, 1, 1⟩ 0
      ≠ p_loop_iters_spec ⟨3, 1, 2, 0, 1, 1, 1, 1, 8, false, 2, 1, 1⟩ := by
  decide

/-- Claim C9 (amended): each scheduling unit p executes
`k_tiles * tiles_per_SM(p)` loop iterations, where the per-unit tile counts
sum to totalTiles (so the iteration counts sum to kTiles * totalTiles), every
unit's count is at most `kTiles * ceil(totalTiles / NUM_SMS)`, and unit 0
attains that bound. -/
theorem claim_C9 (c : PCfg) (hNS : 0 < c.NUM_SMS) :
    (∑ p ∈ Finset.range c.NUM_SMS, p_loop_iters c p = p_k_tiles c * p_num_tiles c) ∧
    (∀ p, p < c.NUM_SMS →
      p_loop_iters c p ≤ p_k_tiles c * cdiv (p_num_tiles c) c.NUM_SMS) ∧
    p_loop_iters c 0 = p_k_tiles c * cdiv (p_num_tiles c) c.NUM_SMS := by
  have hcd := cdiv_eq (p_num_tiles c) c.NUM_SMS hNS
  refine ⟨?_, ?_, ?_⟩
  · unfold p_loop_iters
    rw [← Finset.mul_sum, tiles_per_SM_sum c hNS]
  · intro p _
    unfold p_loop_iters p_tiles_per_SM
    apply Nat.mul_le_mul_left
    by_cases hz : p_num_tiles c % c.NUM_SMS = 0
    · rw [if_pos hz] at hcd
      rw [if_neg (by omega)]
      omega
    · rw [if_neg hz] at hcd
      by_cases hcase : p < p_num_tiles c % c.NUM_SMS
      · rw [if_pos hcase]
        omega
      · rw [if_neg hcase]
        omega
  · unfold p_loop_iters p_tiles_per_SM
    by_cases hz : p_num_tiles c % c.NUM_SMS = 0
    · rw [if_pos hz] at hcd
      rw [if_neg (by omega), hcd]
    · rw [if_neg hz] at hcd
      rw [if_pos (by omega), hcd]

/-- Witness for claim C9 at a concrete configuration. -/
theorem claim_C9_witness :
    0 < (⟨3, 1, 2, 0, 1, 1, 1, 1, 8, false, 2, 1, 1⟩ : PCfg).NUM_SMS ∧
    ((∑ p ∈ Finset.range (⟨3, 1, 2, 0, 1, 1, 1, 1, 8, false, 2, 1, 1⟩ : PCfg).NUM_SMS,
        p_loop_iters ⟨3, 1, 2, 0, 1, 1, 1, 1, 8, false, 2, 1, 1⟩ p
      = p_k_tiles ⟨3, 1, 2, 0, 1, 1, 1, 1, 8, false, 2, 1, 1⟩
          * p_num_tiles ⟨3, 1, 2, 0, 1, 1, 1, 1, 8, false, 2, 1, 1⟩) ∧
     (∀ p, p < (⟨3, 1, 2, 0, 1, 1, 1, 1, 8, false, 2, 1, 1⟩ : PCfg).NUM_SMS →
        p_loop_iters ⟨3, 1, 2, 0, 1, 1, 1, 1, 8, false, 2, 1, 1⟩ p
          ≤ p_k_tiles ⟨3, 1, 2, 0, 1, 1, 1, 1, 8, false, 2, 1, 1⟩
              * cdiv (p_num_tiles ⟨3, 1, 2, 0, 1, 1, 1, 1, 8, false, 2, 1, 1⟩)
                  (⟨3, 1, 2, 0, 1, 1, 1, 1, 8, false, 2, 1, 1⟩ : PCfg).NUM_SMS) ∧
     p_loop_iters ⟨3, 1, 2, 0, 1, 1, 1, 1, 8, false, 2, 1, 1⟩ 0
      = p_k_tiles ⟨3, 1, 2, 0, 1, 1, 1, 1, 8, false, 2, 1, 1⟩
          * cdiv (p_num_tiles ⟨3, 1, 2, 0, 1, 1, 1, 1, 8, false, 2, 1, 1⟩)
              (⟨3, 1, 2, 0, 1, 1, 1, 1, 8, false, 2, 1, 1⟩ : PCfg).NUM_SMS) :=
  ⟨by decide, claim_C9 ⟨3, 1, 2, 0, 1, 1, 1, 1, 8, false, 2, 1, 1⟩ (by decide)⟩

/-- Claim C10: for every rank, `copy_kernel` writes exactly the rows
`[rank*M_per_rank, (rank+1)*M_per_rank)` of the global workspace, copying the
local buffer element-for-element, and leaves every element outside that row
range unchanged. -/
theorem claim_C10 (c : CopyCfg) (localBuf g0 : Nat → Nat → Int)
    (hBM : 0 < c.BLOCK_SIZE_M) (hBN : 0 < c.BLOCK_SIZE_N) :
    (∀ i j : Nat, i < c.M_per_rank → j < c.N →
      copy_run c localBuf g0 (c.rank * c.M_per_rank + i) j = localBuf i j) ∧
    (∀ gi gj : Nat,
      gi < c.rank * c.M_per_rank ∨ c.rank * c.M_per_rank + c.M_per_rank ≤ gi →
      copy_run c localBuf g0 gi gj = g0 gi gj) :=
  copy_correct c localBuf g0 hBM hBN

/-- Witness for claim C10 at a concrete configuration. -/
theorem claim_C10_witness :
    (0 < (2:Nat) ∧ 0 < (2:Nat)) ∧
    ((∀ i j : Nat, i < 3 → j < 3 →
        copy_run ⟨1, 3, 3, 2, 2⟩ (fun a b => (a : Int) + b) (fun _ _ => 7) (3 + i) j
          = (i : Int) + j) ∧
     (∀ gi gj : Nat, gi < 3 ∨ 3 + 3 ≤ gi →
        copy_run ⟨1, 3, 3, 2, 2⟩ (fun a b => (a : Int) + b) (fun _ _ => 7) gi gj = 7)) :=
  ⟨⟨by decide, by decide⟩,
   claim_C10 ⟨1, 3, 3, 2, 2⟩ (fun a b => (a : Int) + b) (fun _ _ => 7)
     (by decide) (by decide)⟩

/-- Claim C5: hierarchical swizzle of the persistent kernel (nnodes ≠ 1): the
swizzled row tile's owning rank is the recombination of the node component
rotated by the caller's node id and the local component rotated by the
caller's rank, and the intra-shard tile offset is unchanged. -/
theorem claim_C5 (c : PCfg) (hnn : p_nnodes c ≠ 1) (hppr : 0 < p_pid_ms_per_rank c)
    (pm : Nat) :
    p_swizzle_m c pm / p_pid_ms_per_rank c
      = (pm / p_pid_ms_per_rank c / c.LOCAL_WORLD_SIZE + p_node_id c) % p_nnodes c
          * c.LOCAL_WORLD_SIZE
        + (pm / p_pid_ms_per_rank c % c.LOCAL_WORLD_SIZE + c.rank) % c.LOCAL_WORLD_SIZE ∧
    p_swizzle_m c pm % p_pid_ms_per_rank c = pm % p_pid_ms_per_rank c := by
  rw [p_swizzle_m_else hnn, intra_eq_mod]
  have hintra : pm % p_pid_ms_per_rank c < p_pid_ms_per_rank c := Nat.mod_lt _ hppr
  exact ⟨(decomp_div hppr hintra).1, (decomp_div hppr hintra).2⟩

/-- Witness for claim C5 at a concrete configuration. -/
theorem claim_C5_witness :
    (p_nnodes ⟨8, 2, 2, 1, 4, 2, 2, 2, 8, false, 2, 1, 2⟩ ≠ 1 ∧
     0 < p_pid_ms_per_rank ⟨8, 2, 2, 1, 4, 2, 2, 2, 8, false, 2, 1, 2⟩) ∧
    (p_swizzle_m ⟨8, 2, 2, 1, 4, 2, 2, 2, 8, false, 2, 1, 2⟩ 3
        / p_pid_ms_per_rank ⟨8, 2, 2, 1, 4, 2, 2, 2, 8, false, 2, 1, 2⟩
      = (3 / p_pid_ms_per_rank ⟨8, 2, 2, 1, 4, 2, 2, 2, 8, false, 2, 1, 2⟩ / 2
            + p_node_id ⟨8, 2, 2, 1, 4, 2, 2, 2, 8, false, 2, 1, 2⟩)
            % p_nnodes ⟨8, 2, 2, 1, 4, 2, 2, 2, 8, false, 2, 1, 2⟩ * 2
        + (3 / p_pid_ms_per_rank ⟨8, 2, 2, 1, 4, 2, 2, 2, 8, false, 2, 1, 2⟩ % 2 + 1) % 2 ∧
     p_swizzle_m ⟨8, 2, 2, 1, 4, 2, 2, 2, 8, false, 2, 1, 2⟩ 3
        % p_pid_ms_per_rank ⟨8, 2, 2, 1, 4, 2, 2, 2, 8, false, 2, 1, 2⟩
      = 3 % p_pid_ms_per_rank ⟨8, 2, 2, 1, 4, 2, 2, 2, 8, false, 2, 1, 2⟩) :=
  ⟨⟨by decide, by decide⟩,
   claim_C5 ⟨8, 2, 2, 1, 4, 2, 2, 2, 8, false, 2, 1, 2⟩ (by decide) (by decide) 3⟩

/-- Claim C2: every output tile is scheduled exactly once: in the persistent
kernel the linear tile ids handled by the NUM_SMS units (unit p takes
p, p+NUM_SMS, ... for tiles_per_SM(p) iterations) partition
[0, num_pid_m*num_pid_n); in the non-persistent kernel the grouped-and-swizzled
map pid ↦ (pid_m, pid_n) is a bijection from the grid onto the tile space. -/
theorem claim_C2 (c : NPCfg) (d : PCfg) (hG : 0 < c.GROUP_SIZE_M)
    (hNS : 0 < d.NUM_SMS) :
    (∀ n, n < p_num_tiles d →
      ∃! pt : Nat × Nat, pt.1 < d.NUM_SMS ∧ pt.2 < p_tiles_per_SM d pt.1 ∧
        n = pt.1 + pt.2 * d.NUM_SMS) ∧
    (∀ pid, pid < np_grid c →
      np_pid_m c pid < np_num_pid_m c ∧ np_pid_n c pid < np_num_pid_n c) ∧
    (∀ p1, p1 < np_grid c → ∀ p2, p2 < np_grid c →
      np_pid_m c p1 = np_pid_m c p2 → np_pid_n c p1 = np_pid_n c p2 → p1 = p2) ∧
    (∀ tm, tm < np_num_pid_m c → ∀ tn, tn < np_num_pid_n c →
      ∃ pid, pid < np_grid c ∧ np_pid_m c pid = tm ∧ np_pid_n c pid = tn) :=
  ⟨fun _ hn => p_tiles_partition d hNS hn,
   fun _ hpid => np_map_lt c hG hpid,
   fun _ h1 _ h2 hm hn => np_map_inj c hG h1 h2 hm hn,
   fun _ htm _ htn => np_map_surj c hG htm htn⟩

/-- Witness for claim C2 at a concrete configuration. -/
theorem claim_C2_witness :
    (0 < (⟨4, 2, 2, 1, 2, 2, 2, 2, 8⟩ : NPCfg).GROUP_SIZE_M ∧
     0 < (⟨3, 2, 2, 0, 1, 1, 1, 1, 8, false, 2, 1, 1⟩ : PCfg).NUM_SMS) ∧
    ((∀ n, n < p_num_tiles ⟨3, 2, 2, 0, 1, 1, 1, 1, 8, false, 2, 1, 1⟩ →
      ∃! pt : Nat × Nat, pt.1 < (⟨3, 2, 2, 0, 1, 1, 1, 1, 8, false, 2, 1, 1⟩ : PCfg).NUM_SMS ∧
        pt.2 < p_tiles_per_SM ⟨3, 2, 2, 0, 1, 1, 1, 1, 8, false, 2, 1, 1⟩ pt.1 ∧
        n = pt.1 + pt.2 * (⟨3, 2, 2, 0, 1, 1, 1, 1, 8, false, 2, 1, 1⟩ : PCfg).NUM_SMS) ∧
     (∀ pid, pid < np_grid ⟨4, 2, 2, 1, 2, 2, 2, 2, 8⟩ →
      np_pid_m ⟨4, 2, 2, 1, 2, 2, 2, 2, 8⟩ pid < np_num_pid_m ⟨4, 2, 2, 1, 2, 2, 2, 2, 8⟩ ∧
      np_pid_n ⟨4, 2, 2, 1, 2, 2, 2, 2, 8⟩ pid < np_num_pid_n ⟨4, 2, 2, 1, 2, 2, 2, 2, 8⟩) ∧
     (∀ p1, p1 < np_grid ⟨4, 2, 2, 1, 2, 2, 2, 2, 8⟩ →
      ∀ p2, p2 < np_grid ⟨4, 2, 2, 1, 2, 2, 2, 2, 8⟩ →
      np_pid_m ⟨4, 2, 2, 1, 2, 2, 2, 2, 8⟩ p1 = np_pid_m ⟨4, 2, 2, 1, 2, 2, 2, 2, 8⟩ p2 →
      np_pid_n ⟨4, 2, 2, 1, 2, 2, 2, 2, 8⟩ p1 = np_pid_n ⟨4, 2, 2, 1, 2, 2, 2, 2, 8⟩ p2 →
      p1 = p2) ∧
     (∀ tm, tm < np_num_pid_m ⟨4, 2, 2, 1, 2, 2, 2, 2, 8⟩ →
      ∀ tn, tn < np_num_pid_n ⟨4, 2, 2, 1, 2, 2, 2, 2, 8⟩ →
      ∃ pid, pid < np_grid ⟨4, 2, 2, 1, 2, 2, 2, 2, 8⟩ ∧
        np_pid_m ⟨4, 2, 2, 1, 2, 2, 2, 2, 8⟩ pid = tm ∧
        np_pid_n ⟨4, 2, 2, 1, 2, 2, 2, 2, 8⟩ pid = tn)) :=
  ⟨⟨by decide, by decide⟩,
   claim_C2 ⟨4, 2, 2, 1, 2, 2, 2, 2, 8⟩ ⟨3, 2, 2, 0, 1, 1, 1, 1, 8, false, 2, 1, 1⟩
     (by decide) (by decide)⟩

/-- Claim C4, counterexample: in the non-persistent kernel with
M_per_rank = 3, BLOCK_SIZE_M = 2, rank = 3, the row tile of program 0 is
rotated by ceil(rank*M_per_rank / BLOCK_SIZE_M) = 5, not by
rank * rowTilesPerRankShard = 3*2 = 6 ≡ 0 (mod 6) as the claim states. -/
theorem claim_C4_counterexample :
    np_pid_m ⟨12, 1, 1, 3, 4, 2, 1, 1, 8⟩ 0
      ≠ np_pid_m_spec_rotation ⟨12, 1, 1, 3, 4, 2, 1, 1, 8⟩ 0 := by
  decide

/-- Claim C4 (amended): in the single-node topology the rank-aware rotation is
applied AFTER the grouped mapping, to its row-tile output, modulo the number
of row tiles.  The persistent kernel rotates by
(rank % num_ranks) * rowTilesPerRankShard — equal to the claimed
rank * rowTilesPerRankShard for rank < num_ranks — while the non-persistent
kernel rotates by ceil(rank * M_per_rank / BLOCK_SIZE_M), which equals the
claimed amount exactly when BLOCK_SIZE_M divides M_per_rank. -/
theorem claim_C4 (c : NPCfg) (d : PCfg)
    (hBMc : 0 < c.BLOCK_SIZE_M) (halignc : c.BLOCK_SIZE_M ∣ np_m_per_rank c)
    (hrank : d.rank < d.num_ranks) (hnn : p_nnodes d = 1) :
    (∀ pid : Nat, np_pid_m c pid = np_pid_m_spec_rotation c pid) ∧
    (∀ tid : Nat, p_pid_m d tid
        = ((p_grouped d tid).1 + d.rank * p_pid_ms_per_rank d) % p_num_pid_m d) := by
  constructor
  · intro pid
    have hoff : np_pid_m_offset c = c.rank * cdiv (np_m_per_rank c) c.BLOCK_SIZE_M := by
      unfold np_pid_m_offset
      obtain ⟨q, hq⟩ := halignc
      have hassoc : c.BLOCK_SIZE_M * q * c.rank = c.BLOCK_SIZE_M * (q * c.rank) :=
        Nat.mul_assoc _ _ _
      rw [hq, hassoc, cdiv_of_dvd hBMc ⟨q * c.rank, rfl⟩,
          Nat.mul_div_cancel_left _ hBMc, cdiv_of_dvd hBMc ⟨q, rfl⟩,
          Nat.mul_div_cancel_left _ hBMc, Nat.mul_comm]
    unfold np_pid_m np_pid_m_spec_rotation
    rw [hoff]
  · intro tid
    unfold p_pid_m
    have hx : Nat.xor d.rank 0 = d.rank := Nat.xor_zero d.rank
    rw [p_swizzle_m_one hnn, hx, Nat.add_zero, Nat.mod_eq_of_lt hrank]

/-- Witness for claim C4 at a concrete configuration. -/
theorem claim_C4_witness :
    (0 < (⟨8, 1, 1, 1, 4, 2, 1, 1, 8⟩ : NPCfg).BLOCK_SIZE_M ∧
     (⟨8, 1, 1, 1, 4, 2, 1, 1, 8⟩ : NPCfg).BLOCK_SIZE_M
       ∣ np_m_per_rank ⟨8, 1, 1, 1, 4, 2, 1, 1, 8⟩ ∧
     (⟨8, 2, 2, 1, 4, 2, 2, 2, 8, false, 2, 1, 4⟩ : PCfg).rank
       < (⟨8, 2, 2, 1, 4, 2, 2, 2, 8, false, 2, 1, 4⟩ : PCfg).num_ranks ∧
     p_nnodes ⟨8, 2, 2, 1, 4, 2, 2, 2, 8, false, 2, 1, 4⟩ = 1) ∧
    ((∀ pid : Nat, np_pid_m ⟨8, 1, 1, 1, 4, 2, 1, 1, 8⟩ pid
        = np_pid_m_spec_rotation ⟨8, 1, 1, 1, 4, 2, 1, 1, 8⟩ pid) ∧
     (∀ tid : Nat, p_pid_m ⟨8, 2, 2, 1, 4, 2, 2, 2, 8, false, 2, 1, 4⟩ tid
        = ((p_grouped ⟨8, 2, 2, 1, 4, 2, 2, 2, 8, false, 2, 1, 4⟩ tid).1
            + 1 * p_pid_ms_per_rank ⟨8, 2, 2, 1, 4, 2, 2, 2, 8, false, 2, 1, 4⟩)
            % p_num_pid_m ⟨8, 2, 2, 1, 4, 2, 2, 2, 8, false, 2, 1, 4⟩)) :=
  ⟨⟨by decide, by decide, by decide, by decide⟩,
   claim_C4 ⟨8, 1, 1, 1, 4, 2, 1, 1, 8⟩ ⟨8, 2, 2, 1, 4, 2, 2, 2, 8, false, 2, 1, 4⟩
     (by decide) (by decide) (by decide) (by decide)⟩

/-- Claim C3: before the first A load of an output tile, both kernels wait on
exactly the contiguous flag slots rank_beg..rank_end, and that slot set is
exactly the set of ranks whose owned row range
[r*M_per_rank, (r+1)*M_per_rank) intersects the tile's row range
[offs_am, min(offs_am + BLOCK_SIZE_M, M)). -/
theorem claim_C3 (c : NPCfg) (d : PCfg) (q : Nat)
    (hBMc : 0 < c.BLOCK_SIZE_M) (hWSc : 0 < c.WORLD_SIZE) (hdvdc : c.WORLD_SIZE ∣ c.M)
    (hBMd : 0 < d.BLOCK_SIZE_M) (hnrd : 0 < d.num_ranks)
    (hMd : d.M = q * d.num_ranks) (halignd : d.BLOCK_SIZE_M ∣ q)
    (hGd : 0 < d.GROUP_SIZE_M) (hLWSd : 0 < d.LOCAL_WORLD_SIZE)
    (hLdvdd : d.LOCAL_WORLD_SIZE ∣ d.num_ranks) :
    (∀ pid, pid < np_grid c →
      np_wait_slots c pid = Finset.Icc (np_rank_beg c pid) (np_rank_end c pid) ∧
      (∀ r : Nat, r ∈ np_wait_slots c pid ↔
        ∃ x : Nat, r * np_m_per_rank c ≤ x ∧ x < (r + 1) * np_m_per_rank c ∧
          np_offs_am c pid ≤ x ∧ x < min (np_offs_am c pid + c.BLOCK_SIZE_M) c.M)) ∧
    (∀ tid, tid < p_num_tiles d →
      p_wait_slots d tid = Finset.Icc (p_rank_beg d tid) (p_rank_end d tid) ∧
      (∀ r : Nat, r ∈ p_wait_slots d tid ↔
        ∃ x : Nat, r * p_M_per_rank d ≤ x ∧ x < (r + 1) * p_M_per_rank d ∧
          p_offs_am d tid ≤ x ∧ x < min (p_offs_am d tid + d.BLOCK_SIZE_M) d.M)) := by
  constructor
  · intro pid hpid
    obtain ⟨hMpr, hoffs⟩ := np_env c hBMc hWSc hdvdc hpid
    have hbe : np_rank_beg c pid ≤ np_rank_end c pid :=
      (np_wait_bounds c hBMc hWSc hdvdc hpid).1
    have hicc : np_wait_slots c pid = Finset.Icc (np_rank_beg c pid) (np_rank_end c pid) := by
      unfold np_wait_slots
      exact slots_image_eq_Icc hbe
    refine ⟨hicc, ?_⟩
    intro r
    rw [hicc, Finset.mem_Icc]
    have hch := wait_slots_char hBMc hMpr hoffs r
    unfold np_rank_beg np_rank_end
    exact hch
  · intro tid htid
    have hdvdd : d.num_ranks ∣ d.M := ⟨q, by rw [hMd, Nat.mul_comm]⟩
    obtain ⟨hMpreq, hnpm⟩ := p_npm_eq d hMd hnrd hBMd halignd
    obtain ⟨hMpr, hoffs⟩ := p_env d hBMd hnrd hdvdd hGd hLWSd hLdvdd hnpm htid
    have hbe : p_rank_beg d tid ≤ p_rank_end d tid :=
      (p_wait_bounds d hBMd hnrd hdvdd hGd hLWSd hLdvdd hnpm htid).1
    have hicc : p_wait_slots d tid = Finset.Icc (p_rank_beg d tid) (p_rank_end d tid) := by
      unfold p_wait_slots
      exact slots_image_eq_Icc hbe
    refine ⟨hicc, ?_⟩
    intro r
    rw [hicc, Finset.mem_Icc]
    have hch := wait_slots_char hBMd hMpr hoffs r
    unfold p_rank_beg p_rank_end
    exact hch

/-- Witness for claim C3 at a concrete configuration. -/
theorem claim_C3_witness :
    (0 < (⟨4, 2, 2, 1, 2, 2, 2, 2, 8⟩ : NPCfg).BLOCK_SIZE_M ∧
     0 < (⟨4, 2, 2, 1, 2, 2, 2, 2, 8⟩ : NPCfg).WORLD_SIZE ∧
     (⟨4, 2, 2, 1, 2, 2, 2, 2, 8⟩ : NPCfg).WORLD_SIZE ∣ (4:Nat) ∧
     0 < (⟨4, 2, 2, 1, 2, 2, 2, 2, 8, false, 2, 1, 2⟩ : PCfg).BLOCK_SIZE_M ∧
     0 < (⟨4, 2, 2, 1, 2, 2, 2, 2, 8, false, 2, 1, 2⟩ : PCfg).num_ranks ∧
     (⟨4, 2, 2, 1, 2, 2, 2, 2, 8, false, 2, 1, 2⟩ : PCfg).M = 2 * 2 ∧
     (2:Nat) ∣ 2 ∧
     0 < (⟨4, 2, 2, 1, 2, 2, 2, 2, 8, false, 2, 1, 2⟩ : PCfg).GROUP_SIZE_M ∧
     0 < (⟨4, 2, 2, 1, 2, 2, 2, 2, 8, false, 2, 1, 2⟩ : PCfg).LOCAL_WORLD_SIZE ∧
     (2:Nat) ∣ 2) ∧
    ((∀ pid, pid < np_grid ⟨4, 2, 2, 1, 2, 2, 2, 2, 8⟩ →
      np_wait_slots ⟨4, 2, 2, 1, 2, 2, 2, 2, 8⟩ pid
        = Finset.Icc (np_rank_beg ⟨4, 2, 2, 1, 2, 2, 2, 2, 8⟩ pid)
            (np_rank_end ⟨4, 2, 2, 1, 2, 2, 2, 2, 8⟩ pid) ∧
      (∀ r : Nat, r ∈ np_wait_slots ⟨4, 2, 2, 1, 2, 2, 2, 2, 8⟩ pid ↔
        ∃ x : Nat, r * np_m_per_rank ⟨4, 2, 2, 1, 2, 2, 2, 2, 8⟩ ≤ x ∧
          x < (r + 1) * np_m_per_rank ⟨4, 2, 2, 1, 2, 2, 2, 2, 8⟩ ∧
          np_offs_am ⟨4, 2, 2, 1, 2, 2, 2, 2, 8⟩ pid ≤ x ∧
          x < min (np_offs_am ⟨4, 2, 2, 1, 2, 2, 2, 2, 8⟩ pid + 2) 4)) ∧
     (∀ tid, tid < p_num_tiles ⟨4, 2, 2, 1, 2, 2, 2, 2, 8, false, 2, 1, 2⟩ →
      p_wait_slots ⟨4, 2, 2, 1, 2, 2, 2, 2, 8, false, 2, 1, 2⟩ tid
        = Finset.Icc (p_rank_beg ⟨4, 2, 2, 1, 2, 2, 2, 2, 8, false, 2, 1, 2⟩ tid)
            (p_rank_end ⟨4, 2, 2, 1, 2, 2, 2, 2, 8, false, 2, 1, 2⟩ tid) ∧
      (∀ r : Nat, r ∈ p_wait_slots ⟨4, 2, 2, 1, 2, 2, 2, 2, 8, false, 2, 1, 2⟩ tid ↔
        ∃ x : Nat, r * p_M_per_rank ⟨4, 2, 2, 1, 2, 2, 2, 2, 8, false, 2, 1, 2⟩ ≤ x ∧
          x < (r + 1) * p_M_per_rank ⟨4, 2, 2, 1, 2, 2, 2, 2, 8, false, 2, 1, 2⟩ ∧
          p_offs_am ⟨4, 2, 2, 1, 2, 2, 2, 2, 8, false, 2, 1, 2⟩ tid ≤ x ∧
          x < min (p_offs_am ⟨4, 2, 2, 1, 2, 2, 2, 2, 8, false, 2, 1, 2⟩ tid + 2) 4))) :=
  ⟨⟨by decide, by decide, by decide, by decide, by decide, by decide, by decide,
    by decide, by decide, by decide⟩,
   claim_C3 ⟨4, 2, 2, 1, 2, 2, 2, 2, 8⟩ ⟨4, 2, 2, 1, 2, 2, 2, 2, 8, false, 2, 1, 2⟩ 2
     (by decide) (by decide) (by decide) (by decide) (by decide) (by decide)
     (by decide) (by decide) (by decide) (by decide)⟩

/-- Claim C8, counterexample: the A loads of the non-persistent kernel are NOT
masked at the M boundary — the row index is wrapped modulo M instead.  With
M = 3, BLOCK_SIZE_M = 2, program 1 loads row (2+1) % 3 = 0 of A (value 5)
where a boundary-masked load would produce 0. -/
theorem claim_C8_counterexample :
    np_a_load ⟨3, 1, 1, 0, 1, 2, 1, 1, 8⟩ (fun _ _ => 5) 1 0 1 0
      ≠ np_a_load_spec_masked ⟨3, 1, 1, 0, 1, 2, 1, 1, 8⟩ (fun _ _ => 5) 1 0 1 0 := by
  decide

/-- Claim C8 (amended): in the non-persistent kernel, partial tiles at the M/N
boundary are handled by modulo-wrapped row/column indices with K-boundary
masks on the loads and by the store mask `offs_cm < M ∧ offs_cn < N`: every
element written inside [M, N) is the correct ragged-edge value and no element
outside C's [M, N) extent is written. -/
theorem claim_C8 (c : NPCfg) (A B C0 : Nat → Nat → Int) (flags : Nat → Int)
    (hBM : 0 < c.BLOCK_SIZE_M) (hBN : 0 < c.BLOCK_SIZE_N) (hBK : 0 < c.BLOCK_SIZE_K)
    (hG : 0 < c.GROUP_SIZE_M) (hWS : 0 < c.WORLD_SIZE) (hdvd : c.WORLD_SIZE ∣ c.M)
    (hflags : ∀ s : Nat, s < c.WORLD_SIZE → flags s = 1) :
    np_all_waits c flags = true ∧
    (∀ i j : Nat, i < c.M → j < c.N → np_final c A B C0 i j = refC c.K A B i j) ∧
    (∀ i j : Nat, c.M ≤ i ∨ c.N ≤ j → np_final c A B C0 i j = C0 i j) := by
  obtain ⟨hw, hv⟩ := np_correct c A B C0 flags hBM hBN hBK hG hWS hdvd hflags
  refine ⟨hw, ?_, ?_⟩
  · intro i j hi hj
    rw [hv i j, if_pos ⟨hi, hj⟩]
  · intro i j hout
    rw [hv i j, if_neg (by omega)]

/-- Witness for claim C8 at a concrete ragged configuration
(M = 3, N = 3, K = 3 with 2×2×2 tiles). -/
theorem claim_C8_witness :
    (0 < (2:Nat) ∧ 0 < (2:Nat) ∧ 0 < (2:Nat) ∧ 0 < (8:Nat) ∧ 0 < (1:Nat) ∧
     (1:Nat) ∣ 3 ∧ (∀ s : Nat, s < 1 → (fun _ : Nat => (1:Int)) s = 1)) ∧
    (np_all_waits ⟨3, 3, 3, 0, 1, 2, 2, 2, 8⟩ (fun _ => 1) = true ∧
     (∀ i j : Nat, i < 3 → j < 3 →
        np_final ⟨3, 3, 3, 0, 1, 2, 2, 2, 8⟩ (fun a b => (a : Int) + b)
          (fun a b => (a : Int) * b) (fun _ _ => 0) i j
        = refC 3 (fun a b => (a : Int) + b) (fun a b => (a : Int) * b) i j) ∧
     (∀ i j : Nat, (3:Nat) ≤ i ∨ (3:Nat) ≤ j →
        np_final ⟨3, 3, 3, 0, 1, 2, 2, 2, 8⟩ (fun a b => (a : Int) + b)
          (fun a b => (a : Int) * b) (fun _ _ => 0) i j = 0)) :=
  ⟨⟨by decide, by decide, by decide, by decide, by decide, by decide, by decide⟩,
   claim_C8 ⟨3, 3, 3, 0, 1, 2, 2, 2, 8⟩ (fun a b => (a : Int) + b)
     (fun a b => (a : Int) * b) (fun _ _ => 0) (fun _ => 1)
     (by decide) (by decide) (by decide) (by decide) (by decide) (by decide)
     (by decide)⟩

/-- Claim C1, counterexample: a configuration that is valid as the claim
states it (num_ranks = 4, M = 3*4 = 12 divisible by num_ranks and by
BLOCK_SIZE_M = 2, N = 4 divisible by num_ranks and by BLOCK_SIZE_N = 2, all
flags at the expected value 1) on which the persistent kernel's multi-node
swizzle (LOCAL_WORLD_SIZE = 2, so nnodes = 2) maps row tiles out of range
because BLOCK_SIZE_M does not divide M_per_rank = 3: rows 8..11 of C are never
written, so C[8][0] = 0 differs from the dense reference product 2. -/
theorem claim_C1_counterexample :
    p_all_waits ⟨12, 4, 2, 1, 4, 2, 2, 2, 8, false, 6, 1, 2⟩ (fun _ => 1) = true ∧
    p_final ⟨12, 4, 2, 1, 4, 2, 2, 2, 8, false, 6, 1, 2⟩ (fun _ _ => 1) (fun _ _ => 1)
        (fun _ _ => 0) 8 0
      ≠ refC 2 (fun _ _ => 1) (fun _ _ => 1) 8 0 := by
  constructor
  · decide
  · decide

/-- Claim C1 (amended): for every valid configuration — num_ranks ≥ 1,
M = M_per_rank * num_ranks, M and N divisible by num_ranks and by the tile
sizes, and additionally BLOCK_SIZE_M ∣ M_per_rank and
LOCAL_WORLD_SIZE ∣ num_ranks (required by the persistent kernel's multi-node
swizzle) with at least one scheduling unit — when the workspace already holds
the row-wise concatenation of all ranks' A-shards and every readiness flag
already equals the expected wait value, both GEMM kernels produce
C[i][j] = Σ_{k<K} A[i][k] * B[j][k]. -/
theorem claim_C1
    (Mpr nr N K rank BM BN BK G NS LWS : Nat) (rv : Int) (ES : Bool)
    (A B C0 C0' : Nat → Nat → Int) (flagsN flagsP : Nat → Int)
    (hnr : 0 < nr) (hBM : 0 < BM) (hBN : 0 < BN) (hBK : 0 < BK) (hG : 0 < G)
    (hNS : 0 < NS) (hLWS : 0 < LWS) (hLdvd : LWS ∣ nr)
    (halign : BM ∣ Mpr) (hNdvd : nr ∣ N) (hBNdvd : BN ∣ N)
    (hE : ES = true → 2 ∣ BN)
    (hflagsN : ∀ s : Nat, s < nr → flagsN s = 1)
    (hflagsP : ∀ s : Nat, s < nr → flagsP s = rv) :
    np_run ⟨Mpr * nr, N, K, rank, nr, BM, BN, BK, G⟩ A B flagsN C0
      = some (np_final ⟨Mpr * nr, N, K, rank, nr, BM, BN, BK, G⟩ A B C0) ∧
    (∀ i j : Nat, i < Mpr * nr → j < N →
      np_final ⟨Mpr * nr, N, K, rank, nr, BM, BN, BK, G⟩ A B C0 i j = refC K A B i j) ∧
    p_run ⟨Mpr * nr, N, K, rank, nr, BM, BN, BK, G, ES, NS, rv, LWS⟩ A B flagsP C0'
      = some (p_final ⟨Mpr * nr, N, K, rank, nr, BM, BN, BK, G, ES, NS, rv, LWS⟩ A B C0') ∧
    (∀ i j : Nat, i < Mpr * nr → j < N →
      p_final ⟨Mpr * nr, N, K, rank, nr, BM, BN, BK, G, ES, NS, rv, LWS⟩ A B C0' i j
        = refC K A B i j) := by
  have hdvdM : (⟨Mpr * nr, N, K, rank, nr, BM, BN, BK, G⟩ : NPCfg).WORLD_SIZE
      ∣ (⟨Mpr * nr, N, K, rank, nr, BM, BN, BK, G⟩ : NPCfg).M :=
    ⟨Mpr, by rw [Nat.mul_comm]⟩
  obtain ⟨hwN, hvN⟩ := np_correct ⟨Mpr * nr, N, K, rank, nr, BM, BN, BK, G⟩
    A B C0 flagsN hBM hBN hBK hG hnr hdvdM hflagsN
  obtain ⟨hwP, hvP⟩ := p_correct
    ⟨Mpr * nr, N, K, rank, nr, BM, BN, BK, G, ES, NS, rv, LWS⟩
    A B C0' flagsP Mpr rfl hnr hBM hBN hBK hG hNS hLWS hLdvd halign hE hflagsP
  refine ⟨?_, ?_, ?_, ?_⟩
  · simp [np_run, hwN]
  · intro i j hi hj
    rw [hvN i j, if_pos ⟨hi, hj⟩]
  · simp [p_run, hwP]
  · intro i j hi hj
    rw [hvP i j, if_pos ⟨hi, hj⟩]

/-- Witness for claim C1 at a concrete configuration
(2 ranks, M_per_rank = 2, N = K = 2, 2×2×2 tiles). -/
theorem claim_C1_witness :
    (0 < (2:Nat) ∧ 0 < (2:Nat) ∧ 0 < (2:Nat) ∧ 0 < (2:Nat) ∧ 0 < (8:Nat) ∧
     0 < (1:Nat) ∧ 0 < (2:Nat) ∧ (2:Nat) ∣ 2 ∧ (2:Nat) ∣ 2 ∧ (2:Nat) ∣ 2 ∧
     (2:Nat) ∣ 2 ∧ (false = true → (2:Nat) ∣ 2) ∧
     (∀ s : Nat, s < 2 → (fun _ : Nat => (1:Int)) s = 1)) ∧
    (np_run ⟨4, 2, 2, 0, 2, 2, 2, 2, 8⟩ (fun a b => (a : Int) + b)
        (fun a b => (a : Int) * b + 1) (fun _ => 1) (fun _ _ => 0)
      = some (np_final ⟨4, 2, 2, 0, 2, 2, 2, 2, 8⟩ (fun a b => (a : Int) + b)
          (fun a b => (a : Int) * b + 1) (fun _ _ => 0)) ∧
     (∀ i j : Nat, i < 4 → j < 2 →
        np_final ⟨4, 2, 2, 0, 2, 2, 2, 2, 8⟩ (fun a b => (a : Int) + b)
          (fun a b => (a : Int) * b + 1) (fun _ _ => 0) i j
        = refC 2 (fun a b => (a : Int) + b) (fun a b => (a : Int) * b + 1) i j) ∧
     p_run ⟨4, 2, 2, 0, 2, 2, 2, 2, 8, false, 1, 1, 2⟩ (fun a b => (a : Int) + b)
        (fun a b => (a : Int) * b + 1) (fun _ => 1) (fun _ _ => 0)
      = some (p_final ⟨4, 2, 2, 0, 2, 2, 2, 2, 8, false, 1, 1, 2⟩
          (fun a b => (a : Int) + b) (fun a b => (a : Int) * b + 1) (fun _ _ => 0)) ∧
     (∀ i j : Nat, i < 4 → j < 2 →
        p_final ⟨4, 2, 2, 0, 2, 2, 2, 2, 8, false, 1, 1, 2⟩ (fun a b => (a : Int) + b)
          (fun a b => (a : Int) * b + 1) (fun _ _ => 0) i j
        = refC 2 (fun a b => (a : Int) + b) (fun a b => (a : Int) * b + 1) i j)) :=
  ⟨⟨by decide, by decide, by decide, by decide, by decide, by decide, by decide,
    by decide, by decide, by decide, by decide, by decide, by decide⟩,
   claim_C1 2 2 2 2 0 2 2 2 8 1 2 1 false (fun a b => (a : Int) + b)
     (fun a b => (a : Int) * b + 1) (fun _ _ => 0) (fun _ _ => 0) (fun _ => 1) (fun _ => 1)
     (by decide) (by decide) (by decide) (by decide) (by decide) (by decide)
     (by decide) (by decide) (by decide) (by decide) (by decide) (by decide)
     (by decide) (by decide)⟩

end AllGatherGemm
